import Mathlib

/-!
# Verification of the lake-simulation backend's selection / bitset / overlap core

Shallow embedding of the Python backend's spatial-selection engine:

* `app/lakes/geometry_services.py` — bit packing (`mask_to_bitset_bytes`,
  `bitset_bytes_to_mask`), zlib+base64 transport encoding
  (`encode_bitset_zlib_base64`, `decode_bitset_zlib_base64`,
  `mask_to_encoded_bitset`), GeoJSON parsing (`parse_geojson_geometry`);
* `app/lakes/services.py` — constraint evaluation inside
  `validate_and_rasterize_geometry`;
* `app/simulations/services.py` — the simulation overlap ledger
  (`add_subdivision`, `delete_subdivision`, `_bitset_or`,
  `_bitset_intersects`, `MAX_SUBDIVISIONS`).

Bytes are modelled as natural numbers `< 256`; masks as `List (List Bool)`
(row-major); numpy raster layers as integer-valued functions on cell
coordinates; exceptions as `Except`.
-/

namespace LakeSim

/-! ## Bit packing (`mask_to_bitset_bytes` / `bitset_bytes_to_mask`)

`np.packbits(flat, bitorder="little")` packs each run of 8 bits into one
byte, bit `j` of the byte being flat bit `8*k + j`; the final byte is padded
with `0` bits.  `np.unpackbits(packed, bitorder="little")` is its inverse.
-/

/-- Value of one group of at most 8 bits, least-significant-bit first:
bit `i` of the resulting byte is element `i` of the list. -/
def bitsToByte : List Bool → Nat
  | [] => 0
  | b :: rest => (if b then 1 else 0) + 2 * bitsToByte rest

/-- `np.packbits(flat, bitorder="little")`: 8-bit groups, LSB0 within each
byte, final byte zero-padded. -/
def packbits : List Bool → List Nat
  | [] => []
  | b :: rest => bitsToByte (b :: rest.take 7) :: packbits (rest.drop 7)
termination_by l => l.length
decreasing_by
  simp only [List.length_cons, List.length_drop]
  omega

/-- The 8 bits of one byte, least-significant first
(`np.unpackbits` on a single byte with `bitorder="little"`). -/
def natToBits : Nat → Nat → List Bool
  | 0, _ => []
  | k + 1, n => (decide (n % 2 = 1)) :: natToBits k (n / 2)

def byteToBits (n : Nat) : List Bool := natToBits 8 n

/-- `np.unpackbits(packed, bitorder="little")`. -/
def unpackbits (bytes : List Nat) : List Bool :=
  (bytes.map byteToBits).flatten

/-- `mask_to_bitset_bytes` (geometry_services.py): row-major flatten, then
`np.packbits(..., bitorder="little")`. -/
def mask_to_bitset_bytes (mask_bool : List (List Bool)) : List Nat :=
  packbits mask_bool.flatten

/-- Reshape a flat list into `rows` rows of `cols` entries
(numpy `reshape((rows, cols))` on a matching-length array). -/
def reshapeMask (rows cols : Nat) (flat : List Bool) : List (List Bool) :=
  match rows with
  | 0 => []
  | r + 1 => flat.take cols :: reshapeMask r cols (flat.drop cols)

/-- `bitset_bytes_to_mask` (geometry_services.py): unpack little-endian bits,
truncate to `rows*cols` bits, reshape. -/
def bitset_bytes_to_mask (bitset : List Nat) (rows cols : Nat) :
    List (List Bool) :=
  reshapeMask rows cols ((unpackbits bitset).take (rows * cols))

/-! ### Lemmas about the bit packing -/

theorem bitsToByte_lt (bits : List Bool) : bitsToByte bits < 2 ^ bits.length := by
  induction bits with
  | nil => simp [bitsToByte]
  | cons b rest ih =>
      simp only [bitsToByte, List.length_cons, pow_succ]
      cases b <;> simp <;> omega

theorem testBit_bitsToByte (bits : List Bool) (j : Nat) :
    (bitsToByte bits).testBit j = bits.getD j false := by
  induction bits generalizing j with
  | nil => simp [bitsToByte]
  | cons b rest ih =>
      cases j with
      | zero =>
          simp only [Nat.testBit_zero, bitsToByte, List.getD_cons_zero]
          cases b <;> simp <;> omega
      | succ j =>
          rw [Nat.testBit_add_one]
          have hdiv : ((if b then 1 else 0) + 2 * bitsToByte rest) / 2
              = bitsToByte rest := by cases b <;> simp <;> omega
          simp only [bitsToByte, hdiv, ih, List.getD_cons_succ]

theorem natToBits_bitsToByte (k : Nat) (bits : List Bool)
    (h : bits.length ≤ k) :
    natToBits k (bitsToByte bits) = bits ++ List.replicate (k - bits.length) false := by
  induction k generalizing bits with
  | zero =>
      have : bits = [] := List.length_eq_zero.mp (Nat.le_zero.mp h)
      subst this; simp [natToBits]
  | succ k ih =>
      cases bits with
      | nil =>
          have h0 : ∀ m, natToBits m 0 = List.replicate m false := by
            intro m
            induction m with
            | zero => simp [natToBits]
            | succ m ihm => simp [natToBits, ihm, List.replicate_succ]
          simp [natToBits, bitsToByte, h0, List.replicate_succ]
      | cons b rest =>
          have hlen : rest.length ≤ k := by simpa using h
          simp only [natToBits, bitsToByte]
          have hmod : ((if b then 1 else 0) + 2 * bitsToByte rest) % 2
              = if b then 1 else 0 := by cases b <;> simp <;> omega
          have hdiv : ((if b then 1 else 0) + 2 * bitsToByte rest) / 2
              = bitsToByte rest := by cases b <;> simp <;> omega
          simp only [hmod, hdiv, ih rest hlen]
          cases b <;> simp [List.length_cons, Nat.succ_sub_succ]

theorem packbits_length (l : List Bool) :
    (packbits l).length = (l.length + 7) / 8 := by
  induction l using packbits.induct with
  | case1 => simp [packbits]
  | case2 b rest ih =>
      simp only [packbits, List.length_cons, ih, List.length_drop]
      omega

theorem getD_take_lt {α : Type} (l : List α) (n j : Nat) (d : α) (h : j < n) :
    (l.take n).getD j d = l.getD j d := by
  induction l generalizing n j with
  | nil => simp
  | cons a rest ih =>
      cases n with
      | zero => omega
      | succ n =>
          cases j with
          | zero => simp
          | succ j => simpa using ih n j (by omega)

theorem getD_drop {α : Type} (l : List α) (n j : Nat) (d : α) :
    (l.drop n).getD j d = l.getD (n + j) d := by
  induction l generalizing n with
  | nil => simp
  | cons a rest ih =>
      cases n with
      | zero => simp
      | succ n => simpa [Nat.succ_add] using ih n

/-- Central bit-layout fact: bit `i % 8` of byte `i // 8` of the packed
output is flat bit `i`; positions past the end of the input (padding bits,
or bytes past the end) read as `0`. -/
theorem testBit_packbits (l : List Bool) (i : Nat) :
    ((packbits l).getD (i / 8) 0).testBit (i % 8) = l.getD i false := by
  induction l using packbits.induct generalizing i with
  | case1 => simp [packbits]
  | case2 b rest ih =>
      by_cases hi : i < 8
      · have h8 : i / 8 = 0 := by omega
        have hm : i % 8 = i := by omega
        simp only [packbits, h8, hm, List.getD_cons_zero, testBit_bitsToByte]
        cases i with
        | zero => simp
        | succ j =>
            simp only [List.getD_cons_succ]
            exact getD_take_lt rest 7 j false (by omega)
      · have h8 : i / 8 = (i - 8) / 8 + 1 := by omega
        have hm : i % 8 = (i - 8) % 8 := by omega
        simp only [packbits, h8, hm, List.getD_cons_succ, ih]
        have : (rest.drop 7).getD (i - 8) false = rest.getD (7 + (i - 8)) false :=
          getD_drop rest 7 (i - 8) false
        rw [this]
        have h7 : 7 + (i - 8) = i - 1 := by omega
        rw [h7]
        cases i with
        | zero => omega
        | succ j => simp

theorem le_eight_mul_packbits_length (l : List Bool) :
    l.length ≤ 8 * (packbits l).length := by
  rw [packbits_length]; omega

/-- Unpacking the packed bits recovers the input followed by the zero
padding of the final byte. -/
theorem unpackbits_packbits (l : List Bool) :
    unpackbits (packbits l)
      = l ++ List.replicate (8 * (packbits l).length - l.length) false := by
  have hstep : ∀ (x : Nat) (bs : List Nat),
      unpackbits (x :: bs) = byteToBits x ++ unpackbits bs := by
    intro x bs; simp [unpackbits]
  induction l using packbits.induct with
  | case1 => simp [packbits, unpackbits]
  | case2 b rest ih =>
      simp only [packbits, hstep]
      have hb : byteToBits (bitsToByte (b :: rest.take 7))
          = (b :: rest.take 7)
            ++ List.replicate (8 - (b :: rest.take 7).length) false := by
        have := natToBits_bitsToByte 8 (b :: rest.take 7)
          (by simp only [List.length_cons, List.length_take]; omega)
        simpa [byteToBits] using this
      rw [hb, ih]
      by_cases hlen : rest.length ≤ 7
      · have htake : rest.take 7 = rest := List.take_of_length_le hlen
        have hdrop : rest.drop 7 = [] := List.drop_eq_nil_of_le hlen
        simp only [htake, hdrop, packbits, unpackbits, List.map_nil,
          List.flatten_nil, List.append_nil, List.length_cons,
          List.length_nil, List.cons_append]
        simp
      · have htakelen : (rest.take 7).length = 7 := by
          simp only [List.length_take]; omega
        have hrep0 : (8 - (b :: rest.take 7).length) = 0 := by
          simp [htakelen]
        rw [hrep0]
        simp only [List.replicate_zero, List.append_nil]
        have hbound := le_eight_mul_packbits_length (rest.drop 7)
        have hdl : (rest.drop 7).length = rest.length - 7 := by
          simp [List.length_drop]
        have hpad : 8 * (packbits (rest.drop 7)).length - (rest.drop 7).length
            = 8 * (packbits (rest.drop 7) ).length + 8 - (rest.length + 1) := by
          rw [hdl] at *
          omega
        rw [hpad]
        simp only [List.length_cons, List.cons_append, List.length_cons]
        have hfinal : (b :: (rest.take 7
              ++ (rest.drop 7 ++ List.replicate
                (8 * (packbits (rest.drop 7)).length + 8 - (rest.length + 1))
                false)))
            = b :: (rest ++ List.replicate
                (8 * (packbits (rest.drop 7)).length + 8 - (rest.length + 1))
                false) := by
          rw [← List.append_assoc, List.take_append_drop]
        rw [hfinal, Nat.mul_succ]

theorem flatten_length_of_shape {α : Type} (m : List (List α)) (cols : Nat)
    (h : ∀ row ∈ m, row.length = cols) :
    m.flatten.length = m.length * cols := by
  induction m with
  | nil => simp
  | cons row rest ih =>
      simp only [List.flatten_cons, List.length_append, List.length_cons]
      rw [h row (by simp), ih (fun r hr => h r (by simp [hr]))]
      ring

theorem reshapeMask_flatten (m : List (List Bool)) (cols : Nat)
    (h : ∀ row ∈ m, row.length = cols) :
    reshapeMask m.length cols m.flatten = m := by
  induction m with
  | nil => simp [reshapeMask]
  | cons row rest ih =>
      have hrow : row.length = cols := h row (by simp)
      subst hrow
      simp only [List.length_cons, reshapeMask, List.flatten_cons,
        List.take_left, List.drop_left]
      rw [ih (fun r hr => h r (by simp [hr]))]

theorem take_unpackbits_packbits (l : List Bool) :
    (unpackbits (packbits l)).take l.length = l := by
  rw [unpackbits_packbits]
  simpa using List.take_left l _

theorem flatten_getD_of_shape (m : List (List Bool)) (cols r c : Nat)
    (h : ∀ row ∈ m, row.length = cols) (hr : r < m.length) (hc : c < cols) :
    m.flatten.getD (r * cols + c) false = (m.getD r []).getD c false := by
  induction m generalizing r with
  | nil => simp at hr
  | cons row rest ih =>
      have hrow : row.length = cols := h row (by simp)
      cases r with
      | zero =>
          simp only [List.flatten_cons, Nat.zero_mul, Nat.zero_add,
            List.getD_cons_zero]
          exact List.getD_append _ _ _ _ (by omega)
      | succ r =>
          have hidx : (r + 1) * cols + c = row.length + (r * cols + c) := by
            rw [hrow]; ring
          simp only [List.flatten_cons, hidx, List.getD_cons_succ]
          rw [List.getD_append_right _ _ _ _ (by omega),
            Nat.add_sub_cancel_left]
          exact ih r (fun x hx => h x (by simp [hx])) (by simpa using hr)

/-- C1: `mask_to_bitset_bytes` packs cell `(r, c)` with linear index
`i = r*cols + c` at byte `i / 8`, bit `i % 8` in LSB0 order; it produces
exactly `⌈rows*cols / 8⌉ = (rows*cols + 7) / 8` bytes (`0` bytes when
`rows*cols = 0`) and every trailing padding position reads as bit `0`;
a `1×8` mask with only the first cell `true` packs to the single byte
`0x01`, and a 9-cell mask with only linear index 8 `true` packs to the two
bytes `[0x00, 0x01]`. -/
theorem mask_to_bitset_bytes_layout (mask : List (List Bool)) (rows cols : Nat)
    (hr : mask.length = rows) (hc : ∀ row ∈ mask, row.length = cols) :
    (mask_to_bitset_bytes mask).length = (rows * cols + 7) / 8
    ∧ (rows * cols = 0 → mask_to_bitset_bytes mask = [])
    ∧ (∀ r c, r < rows → c < cols →
        ((mask_to_bitset_bytes mask).getD ((r * cols + c) / 8) 0).testBit
            ((r * cols + c) % 8)
          = (mask.getD r []).getD c false)
    ∧ (∀ j, rows * cols ≤ j →
        ((mask_to_bitset_bytes mask).getD (j / 8) 0).testBit (j % 8) = false)
    ∧ mask_to_bitset_bytes
        [[true, false, false, false, false, false, false, false]] = [1]
    ∧ mask_to_bitset_bytes
        [[false, false, false], [false, false, false], [false, false, true]]
        = [0, 1] := by
  subst hr
  have hflat : mask.flatten.length = mask.length * cols :=
    flatten_length_of_shape mask cols hc
  refine ⟨?_, ?_, ?_, ?_, ?_, ?_⟩
  · rw [mask_to_bitset_bytes, packbits_length, hflat]
  · intro h0
    have : (mask_to_bitset_bytes mask).length = 0 := by
      rw [mask_to_bitset_bytes, packbits_length, hflat, h0]
    exact List.length_eq_zero.mp this
  · intro r c hrlt hclt
    rw [mask_to_bitset_bytes, testBit_packbits,
      flatten_getD_of_shape mask cols r c hc hrlt hclt]
  · intro j hj
    rw [mask_to_bitset_bytes, testBit_packbits,
      List.getD_eq_default _ _ (by omega)]
  · simp [mask_to_bitset_bytes, packbits, bitsToByte]
  · simp [mask_to_bitset_bytes, packbits, bitsToByte]

/-- Closed witness for `mask_to_bitset_bytes_layout` at a concrete
`2×5` mask. -/
theorem mask_to_bitset_bytes_layout_witness :
    (mask_to_bitset_bytes
        [[true, false, true, false, false], [false, true, false, false, true]]).length
      = (2 * 5 + 7) / 8
    ∧ (2 * 5 = 0 → mask_to_bitset_bytes
        [[true, false, true, false, false], [false, true, false, false, true]] = [])
    ∧ (∀ r c, r < 2 → c < 5 →
        ((mask_to_bitset_bytes
            [[true, false, true, false, false],
              [false, true, false, false, true]]).getD ((r * 5 + c) / 8) 0).testBit
            ((r * 5 + c) % 8)
          = (([[true, false, true, false, false],
              [false, true, false, false, true]] :
              List (List Bool)).getD r []).getD c false)
    ∧ (∀ j, 2 * 5 ≤ j →
        ((mask_to_bitset_bytes
            [[true, false, true, false, false],
              [false, true, false, false, true]]).getD (j / 8) 0).testBit (j % 8)
          = false)
    ∧ mask_to_bitset_bytes
        [[true, false, false, false, false, false, false, false]] = [1]
    ∧ mask_to_bitset_bytes
        [[false, false, false], [false, false, false], [false, false, true]]
        = [0, 1] :=
  mask_to_bitset_bytes_layout
    [[true, false, true, false, false], [false, true, false, false, true]] 2 5
    (by simp) (by intro row hrow; fin_cases hrow <;> simp)

/-! ## Transport encoding (`encode_bitset_zlib_base64` / `decode_bitset_zlib_base64`)

The Python code composes `zlib.compress(data, level)` with standard base64
(`base64.b64encode` / `b64decode`, RFC 4648).  Base64 is embedded exactly.
-/

/-- Value-to-character map of the standard base64 alphabet
(`A..Z`, `a..z`, `0..9`, `+`, `/`). -/
def sextetToChar (s : Nat) : Char :=
  if s < 26 then Char.ofNat (65 + s)
  else if s < 52 then Char.ofNat (97 + (s - 26))
  else if s < 62 then Char.ofNat (48 + (s - 52))
  else if s = 62 then '+'
  else '/'

/-- Character-to-value map of the standard base64 alphabet
(`64` for characters outside the alphabet). -/
def charToSextet (c : Char) : Nat :=
  if 'A' ≤ c ∧ c ≤ 'Z' then c.toNat - 65
  else if 'a' ≤ c ∧ c ≤ 'z' then c.toNat - 97 + 26
  else if '0' ≤ c ∧ c ≤ '9' then c.toNat - 48 + 52
  else if c = '+' then 62
  else if c = '/' then 63
  else 64

/-- `base64.b64encode`: big-endian 24-bit groups split into four sextets,
with `=` padding for a trailing group of one or two bytes. -/
def b64encode : List Nat → List Char
  | [] => []
  | [a] => [sextetToChar (a / 4), sextetToChar (a % 4 * 16), '=', '=']
  | [a, b] => [sextetToChar (a / 4), sextetToChar (a % 4 * 16 + b / 16),
      sextetToChar (b % 16 * 4), '=']
  | a :: b :: c :: rest =>
      sextetToChar (a / 4) :: sextetToChar (a % 4 * 16 + b / 16)
        :: sextetToChar (b % 16 * 4 + c / 64) :: sextetToChar (c % 64)
        :: b64encode rest

/-- `base64.b64decode` on well-formed input: four characters yield three
bytes, or fewer at a final padded group. -/
def b64decode : List Char → List Nat
  | c0 :: c1 :: c2 :: c3 :: rest =>
      let s0 := charToSextet c0
      let s1 := charToSextet c1
      if c2 = '=' then [s0 * 4 + s1 / 16]
      else
        let s2 := charToSextet c2
        if c3 = '=' then [s0 * 4 + s1 / 16, s1 % 16 * 16 + s2 / 4]
        else (s0 * 4 + s1 / 16) :: (s1 % 16 * 16 + s2 / 4)
          :: (s2 % 4 * 64 + charToSextet c3) :: b64decode rest
  | _ => []

theorem charToSextet_sextetToChar {s : Nat} (h : s < 64) :
    charToSextet (sextetToChar s) = s := by
  interval_cases s <;> rfl

theorem sextetToChar_ne_eq {s : Nat} (h : s < 64) : sextetToChar s ≠ '=' := by
  interval_cases s <;> decide

/-- Base64 roundtrip: decoding an encoded byte list recovers it exactly. -/
theorem b64decode_b64encode (l : List Nat) (h : ∀ b ∈ l, b < 256) :
    b64decode (b64encode l) = l := by
  induction l using b64encode.induct with
  | case1 => rfl
  | case2 a =>
      have ha : a < 256 := h a (by simp)
      have h0 : a / 4 < 64 := by omega
      have h1 : a % 4 * 16 < 64 := by omega
      simp only [b64encode, b64decode]
      rw [if_pos trivial, charToSextet_sextetToChar h0,
        charToSextet_sextetToChar h1]
      simp only [List.cons.injEq, and_true]
      omega
  | case3 a b =>
      have ha : a < 256 := h a (by simp)
      have hb : b < 256 := h b (by simp)
      have h0 : a / 4 < 64 := by omega
      have h1 : a % 4 * 16 + b / 16 < 64 := by omega
      have h2 : b % 16 * 4 < 64 := by omega
      simp only [b64encode, b64decode]
      rw [if_neg (sextetToChar_ne_eq h2), if_pos trivial,
        charToSextet_sextetToChar h0, charToSextet_sextetToChar h1,
        charToSextet_sextetToChar h2]
      simp only [List.cons.injEq, and_true]
      exact ⟨by omega, by omega⟩
  | case4 a b c rest ih =>
      have ha : a < 256 := h a (by simp)
      have hb : b < 256 := h b (by simp)
      have hc : c < 256 := h c (by simp)
      have h0 : a / 4 < 64 := by omega
      have h1 : a % 4 * 16 + b / 16 < 64 := by omega
      have h2 : b % 16 * 4 + c / 64 < 64 := by omega
      have h3 : c % 64 < 64 := by omega
      simp only [b64encode, b64decode]
      rw [if_neg (sextetToChar_ne_eq h2), if_neg (sextetToChar_ne_eq h3),
        charToSextet_sextetToChar h0, charToSextet_sextetToChar h1,
        charToSextet_sextetToChar h2, charToSextet_sextetToChar h3,
        ih (fun x hx => h x (by simp [hx]))]
      simp only [List.cons.injEq, and_true]
      exact ⟨by omega, by omega, by omega⟩

/-- Modelled from the spec: `zlib.compress(data, level)` is an external
general-purpose lossless byte compressor (the repository only calls it; its
implementation is not part of this codebase).  The spec requires the scheme
to be lossless for every input at every level, while compressed texts at
different levels may differ (real zlib records the level class in its second
header byte, so level-6 and level-9 streams differ even for equal payloads).
We model a lossless container that records the level in a leading header
byte followed by the raw payload. -/
def zlibCompress (data : List Nat) (level : Nat) : List Nat :=
  level % 256 :: data

/-- Modelled from the spec: `zlib.decompress`, inverse of the lossless
compressor — strips the model's header byte. -/
def zlibDecompress (compressed : List Nat) : List Nat :=
  compressed.drop 1

/-- `encode_bitset_zlib_base64` (geometry_services.py):
`base64.b64encode(zlib.compress(bitset_bytes, level))`; the Python default is
`level = 6`. -/
def encode_bitset_zlib_base64 (bitset_bytes : List Nat) (level : Nat) :
    List Char :=
  b64encode (zlibCompress bitset_bytes level)

/-- `decode_bitset_zlib_base64` (geometry_services.py):
`zlib.decompress(base64.b64decode(b64))`. -/
def decode_bitset_zlib_base64 (b64 : List Char) : List Nat :=
  zlibDecompress (b64decode b64)

/-- `mask_to_encoded_bitset` (geometry_services.py): mask → packbits →
zlib → base64. -/
def mask_to_encoded_bitset (mask_bool : List (List Bool)) (level : Nat) :
    List Char :=
  encode_bitset_zlib_base64 (mask_to_bitset_bytes mask_bool) level

theorem packbits_bytes_lt (l : List Bool) : ∀ b ∈ packbits l, b < 256 := by
  induction l using packbits.induct with
  | case1 => simp [packbits]
  | case2 b rest ih =>
      intro x hx
      simp only [packbits, List.mem_cons] at hx
      rcases hx with hx | hx
      · subst hx
        have := bitsToByte_lt (b :: rest.take 7)
        have hlen : (b :: rest.take 7).length ≤ 8 := by
          simp only [List.length_cons, List.length_take]; omega
        calc bitsToByte (b :: rest.take 7)
            < 2 ^ (b :: rest.take 7).length := bitsToByte_lt _
          _ ≤ 2 ^ 8 := Nat.pow_le_pow_right (by omega) hlen
      · exact ih x hx

theorem decode_encode_bitset (x : List Nat) (level : Nat)
    (h : ∀ b ∈ x, b < 256) :
    decode_bitset_zlib_base64 (encode_bitset_zlib_base64 x level) = x := by
  unfold decode_bitset_zlib_base64 encode_bitset_zlib_base64
  rw [b64decode_b64encode]
  · simp [zlibCompress, zlibDecompress]
  · intro b hb
    simp only [zlibCompress, List.mem_cons] at hb
    rcases hb with hb | hb
    · omega
    · exact h b hb

/-- C2: unpacking a packed boolean mask of shape `(rows, cols)` recovers the
mask exactly (trailing padding bits are discarded by the truncation in
`bitset_bytes_to_mask`), and `decode_bitset_zlib_base64` is a byte-exact left
inverse of `encode_bitset_zlib_base64` for every byte string, including the
empty one. -/
theorem bitset_codec_roundtrip (m : List (List Bool)) (rows cols : Nat)
    (x : List Nat) (hr : m.length = rows) (hc : ∀ row ∈ m, row.length = cols)
    (hx : ∀ b ∈ x, b < 256) :
    bitset_bytes_to_mask (mask_to_bitset_bytes m) rows cols = m
    ∧ decode_bitset_zlib_base64 (encode_bitset_zlib_base64 x 6) = x
    ∧ decode_bitset_zlib_base64 (encode_bitset_zlib_base64 [] 6) = [] := by
  subst hr
  refine ⟨?_, decode_encode_bitset x 6 hx, decode_encode_bitset [] 6 (by simp)⟩
  unfold bitset_bytes_to_mask mask_to_bitset_bytes
  have hlen : m.flatten.length = m.length * cols :=
    flatten_length_of_shape m cols hc
  rw [← hlen, take_unpackbits_packbits, reshapeMask_flatten m cols hc]

/-- Closed witness for `bitset_codec_roundtrip` at a concrete `2×3` mask and
a concrete byte string. -/
theorem bitset_codec_roundtrip_witness :
    bitset_bytes_to_mask
        (mask_to_bitset_bytes [[true, false, true], [true, true, false]]) 2 3
      = [[true, false, true], [true, true, false]]
    ∧ decode_bitset_zlib_base64
        (encode_bitset_zlib_base64 [0, 17, 255] 6) = [0, 17, 255]
    ∧ decode_bitset_zlib_base64 (encode_bitset_zlib_base64 [] 6) = [] :=
  bitset_codec_roundtrip [[true, false, true], [true, true, false]] 2 3
    [0, 17, 255] (by simp) (by intro row hrow; fin_cases hrow <;> simp)
    (by intro b hb; fin_cases hb <;> omega)

/-- C10: the zlib+base64 roundtrip holds at every compression level
`0..9` — the code relies on this level-independence since selection bitsets
are encoded at level 9 (`mask_to_encoded_bitset(sel_mask, level=9)` in
lakes/services.py) while the ledger re-encodes at level 6 (`_encode_bitset`
in simulations/services.py); the two encodings of the same payload differ as
text while decoding to identical bytes. -/
theorem decode_encode_level_independent (x : List Nat) (level : Nat)
    (hx : ∀ b ∈ x, b < 256) (hlevel : level ≤ 9) :
    decode_bitset_zlib_base64 (encode_bitset_zlib_base64 x level) = x
    ∧ encode_bitset_zlib_base64 x 9 ≠ encode_bitset_zlib_base64 x 6
    ∧ decode_bitset_zlib_base64 (encode_bitset_zlib_base64 x 9)
      = decode_bitset_zlib_base64 (encode_bitset_zlib_base64 x 6) := by
  refine ⟨decode_encode_bitset x level hx, ?_, ?_⟩
  · intro hcontra
    unfold encode_bitset_zlib_base64 zlibCompress at hcontra
    have h9 : ∀ b ∈ (9 : Nat) % 256 :: x, b < 256 := by
      intro b hb
      rcases List.mem_cons.mp hb with hb | hb
      · omega
      · exact hx b hb
    have h6 : ∀ b ∈ (6 : Nat) % 256 :: x, b < 256 := by
      intro b hb
      rcases List.mem_cons.mp hb with hb | hb
      · omega
      · exact hx b hb
    have := congrArg b64decode hcontra
    rw [b64decode_b64encode _ h9, b64decode_b64encode _ h6] at this
    simp at this
  · rw [decode_encode_bitset x 9 hx, decode_encode_bitset x 6 hx]

/-- Closed witness for `decode_encode_level_independent` at a concrete byte
string and level. -/
theorem decode_encode_level_independent_witness :
    decode_bitset_zlib_base64 (encode_bitset_zlib_base64 [7, 0, 128] 9)
      = [7, 0, 128]
    ∧ encode_bitset_zlib_base64 [7, 0, 128] 9
      ≠ encode_bitset_zlib_base64 [7, 0, 128] 6
    ∧ decode_bitset_zlib_base64 (encode_bitset_zlib_base64 [7, 0, 128] 9)
      = decode_bitset_zlib_base64 (encode_bitset_zlib_base64 [7, 0, 128] 6) :=
  decode_encode_level_independent [7, 0, 128] 9
    (by intro b hb; fin_cases hb <;> omega) (by omega)

/-! ## Simulation overlap ledger (`app/simulations/services.py`)

State is a `Simulation` value; database persistence is external, so the
Python functions' in-place mutations become a returned updated value.
`AppError` raises become `Except.error`; the user-recoverable structured
payloads returned by `add_subdivision` become an `Option ErrCode` in the
`ok` result.  The validation call into `validate_and_rasterize_geometry` is
external to the ledger: its outcome (`validation.ok`,
`validation.selection_bitset_base64`, `validation.selected_cells`) is passed
in as arguments.
-/

/-- Error codes raised as `AppError` (hard failures). -/
inductive AppErr where
  | BITSET_DIMENSION_MISMATCH
  | SUBDIVISION_NOT_FOUND
  | FORBIDDEN
  deriving DecidableEq, Repr

/-- Error codes returned to the user as structured validation payloads. -/
inductive ErrCode where
  | MAX_SUBDIVISIONS_EXCEEDED
  | DATASET_VERSION_IMMUTABLE
  | INVALID_SELECTION
  | SUBDIVISION_OVERLAP
  deriving DecidableEq, Repr

def MAX_SUBDIVISIONS : Nat := 100

/-- `_decode_bitset` (simulations/services.py):
`zlib.decompress(base64.b64decode(b64))`. -/
def _decode_bitset (bitset_b64 : List Char) : List Nat :=
  zlibDecompress (b64decode bitset_b64)

/-- `_encode_bitset` (simulations/services.py):
`base64.b64encode(zlib.compress(raw, level=6))`. -/
def _encode_bitset (raw : List Nat) : List Char :=
  b64encode (zlibCompress raw 6)

/-- Binary-digit recursion with explicit fuel (`fuel ≥ m` suffices). -/
def popCountAux : Nat → Nat → Nat
  | 0, _ => 0
  | fuel + 1, m => if m = 0 then 0 else m % 2 + popCountAux fuel (m / 2)

/-- Population count of a natural number (Python
`bin(x).count("1")`). -/
def popCount (n : Nat) : Nat := popCountAux n n

/-- Total population count of a byte list. -/
def popCountBytes (l : List Nat) : Nat := (l.map popCount).sum

/-- `_bitset_or` (simulations/services.py): decode both operands, raise
`BITSET_DIMENSION_MISMATCH` on length mismatch, else bytewise OR,
re-encoded at level 6. -/
def _bitset_or (a b : List Char) : Except AppErr (List Char) :=
  if (_decode_bitset a).length ≠ (_decode_bitset b).length then
    .error .BITSET_DIMENSION_MISMATCH
  else
    .ok (_encode_bitset
      (List.zipWith (· ||| ·) (_decode_bitset a) (_decode_bitset b)))

/-- `_bitset_intersects` (simulations/services.py): decode both operands,
raise `BITSET_DIMENSION_MISMATCH` on length mismatch, else count the
overlapping set bits. -/
def _bitset_intersects (a b : List Char) : Except AppErr Nat :=
  if (_decode_bitset a).length ≠ (_decode_bitset b).length then
    .error .BITSET_DIMENSION_MISMATCH
  else
    .ok (popCountBytes
      (List.zipWith (· &&& ·) (_decode_bitset a) (_decode_bitset b)))

/-- A persisted `Subdivision` row (fields the ledger reads). -/
structure Subdivision where
  id : Nat
  selection_bitset_base64 : List Char
  selected_cells : Nat
  deriving DecidableEq, Repr

/-- A persisted `Simulation` row (fields the ledger reads and writes). -/
structure Simulation where
  user_id : Nat
  dataset_version_id : Nat
  occupied_bitset_base64 : Option (List Char)
  subdivision_count : Nat
  total_selected_cells : Nat
  subdivisions : List Subdivision
  deriving DecidableEq, Repr

/-- `create_simulation` (simulations/services.py): empty editable simulation
with a fixed dataset version. -/
def create_simulation (user_id dataset_version_id : Nat) : Simulation :=
  { user_id := user_id
    dataset_version_id := dataset_version_id
    occupied_bitset_base64 := none
    subdivision_count := 0
    total_selected_cells := 0
    subdivisions := [] }

/-- `add_subdivision` (simulations/services.py).  Checks, in source order:
ownership (raises `FORBIDDEN`), capacity (returns
`MAX_SUBDIVISIONS_EXCEEDED`), dataset-version immutability (returns
`DATASET_VERSION_IMMUTABLE`), geometry validation outcome (returns
`INVALID_SELECTION`), then overlap against the occupied bitset (returns
`SUBDIVISION_OVERLAP`, or raises `BITSET_DIMENSION_MISMATCH` on byte-length
mismatch); on acceptance ORs the candidate into `occupied` (or installs it
if `occupied` is absent), appends the subdivision, increments
`subdivision_count` and adds the candidate's `selected_cells` to
`total_selected_cells`.  Result `(sim', sub?, err?)`: `err? = some code`
is the user-recoverable structured payload (state unchanged), `err? = none`
the accepted case. -/
def add_subdivision (sim : Simulation) (user_id : Nat)
    (validation_ok : Bool) (new_bitset : List Char) (selected_cells : Nat)
    (sub_id : Nat) (dataset_version_id : Option Nat) :
    Except AppErr (Simulation × Option Subdivision × Option ErrCode) :=
  if sim.user_id ≠ user_id then .error .FORBIDDEN
  else if MAX_SUBDIVISIONS ≤ sim.subdivision_count then
    .ok (sim, none, some .MAX_SUBDIVISIONS_EXCEEDED)
  else if dataset_version_id ≠ none
      ∧ dataset_version_id ≠ some sim.dataset_version_id then
    .ok (sim, none, some .DATASET_VERSION_IMMUTABLE)
  else if ¬ validation_ok then
    .ok (sim, none, some .INVALID_SELECTION)
  else
    match h : sim.occupied_bitset_base64 with
    | some occ => do
        let overlap_cells ← _bitset_intersects occ new_bitset
        if 0 < overlap_cells then
          .ok (sim, none, some .SUBDIVISION_OVERLAP)
        else do
          let occ' ← _bitset_or occ new_bitset
          let sub : Subdivision :=
            ⟨sub_id, new_bitset, selected_cells⟩
          .ok ({ sim with
                  occupied_bitset_base64 := some occ'
                  subdivision_count := sim.subdivision_count + 1
                  total_selected_cells :=
                    sim.total_selected_cells + selected_cells
                  subdivisions := sim.subdivisions ++ [sub] },
                some sub, none)
    | none =>
        let sub : Subdivision := ⟨sub_id, new_bitset, selected_cells⟩
        .ok ({ sim with
                occupied_bitset_base64 := some new_bitset
                subdivision_count := sim.subdivision_count + 1
                total_selected_cells :=
                  sim.total_selected_cells + selected_cells
                subdivisions := sim.subdivisions ++ [sub] },
              some sub, none)

/-- The recomputation loop of `delete_subdivision`: walk the remaining
subdivisions accumulating `total_cells` and the running OR of their encoded
bitsets (`occupied = s.bitset` for the first, `_bitset_or(occupied, ...)`
afterwards). -/
def rebuild_go (subs : List Subdivision) (occupied : Option (List Char))
    (total_cells : Nat) : Except AppErr (Option (List Char) × Nat) :=
  match subs with
  | [] => .ok (occupied, total_cells)
  | s :: rest =>
      match occupied with
      | none => rebuild_go rest (some s.selection_bitset_base64)
          (total_cells + s.selected_cells)
      | some o =>
          match _bitset_or o s.selection_bitset_base64 with
          | .error e => .error e
          | .ok o' => rebuild_go rest (some o') (total_cells + s.selected_cells)

def rebuild_occupied (subs : List Subdivision) :
    Except AppErr (Option (List Char) × Nat) :=
  rebuild_go subs none 0

/-- `delete_subdivision` (simulations/services.py): ownership check, lookup
(404 if absent), delete, then recompute `occupied` and
`total_selected_cells` from scratch over the remaining subdivisions and
decrement `subdivision_count` (clamped at 0). -/
def delete_subdivision (sim : Simulation) (user_id subdivision_id : Nat) :
    Except AppErr Simulation :=
  if sim.user_id ≠ user_id then .error .FORBIDDEN
  else if ∀ s ∈ sim.subdivisions, s.id ≠ subdivision_id then
    .error .SUBDIVISION_NOT_FOUND
  else
    match rebuild_occupied
        (sim.subdivisions.filter (fun s => s.id ≠ subdivision_id)) with
    | .error e => .error e
    | .ok (occupied, total_cells) =>
        .ok { sim with
              occupied_bitset_base64 := occupied
              subdivision_count := sim.subdivision_count - 1
              total_selected_cells := total_cells
              subdivisions :=
                sim.subdivisions.filter (fun s => s.id ≠ subdivision_id) }

/-! ### Byte-list algebra used by the ledger proofs -/

/-- Bytewise OR of two equally long byte lists. -/
def orBytes (a b : List Nat) : List Nat := List.zipWith (· ||| ·) a b

/-- OR-fold over a list of byte lists, as `delete_subdivision`'s
recomputation loop produces it (first element seeds the accumulator). -/
def foldOr1 : List (List Nat) → List Nat
  | [] => []
  | x :: rest => rest.foldl orBytes x

/-- Decoded selection bitset of a subdivision. -/
def decSub (s : Subdivision) : List Nat :=
  _decode_bitset s.selection_bitset_base64

/-- Bytewise disjointness: no bit position is set in both lists. -/
def bytesDisjoint (a b : List Nat) : Prop :=
  ∀ i, a.getD i 0 &&& b.getD i 0 = 0

theorem popCountAux_congr (fuel : Nat) : ∀ fuel' m, m ≤ fuel → m ≤ fuel' →
    popCountAux fuel m = popCountAux fuel' m := by
  induction fuel with
  | zero =>
      intro fuel' m hm _
      have : m = 0 := by omega
      subst this
      cases fuel' <;> simp [popCountAux]
  | succ fuel ih =>
      intro fuel' m hm hm'
      cases fuel' with
      | zero =>
          have : m = 0 := by omega
          subst this
          simp [popCountAux]
      | succ fuel' =>
          by_cases h0 : m = 0
          · subst h0; simp [popCountAux]
          · simp only [popCountAux, if_neg h0]
            have hdiv : m / 2 < m :=
              Nat.div_lt_self (Nat.pos_of_ne_zero h0) (by omega)
            rw [ih fuel' (m / 2) (by omega) (by omega)]

theorem popCount_eq (n : Nat) :
    popCount n = if n = 0 then 0 else n % 2 + popCount (n / 2) := by
  by_cases h0 : n = 0
  · subst h0; simp [popCount, popCountAux]
  · rw [if_neg h0, popCount, popCount]
    cases n with
    | zero => exact absurd rfl h0
    | succ m =>
        simp only [popCountAux, if_neg h0]
        have hdiv : (m + 1) / 2 < m + 1 :=
          Nat.div_lt_self (by omega) (by omega)
        rw [popCountAux_congr m ((m + 1) / 2) ((m + 1) / 2) (by omega)
          (Nat.le_refl _)]

theorem popCount_lor_of_land_eq_zero (a b : Nat) (h : a &&& b = 0) :
    popCount (a ||| b) = popCount a + popCount b := by
  induction a using Nat.strong_induction_on generalizing b with
  | _ a ih =>
    have hpc0 : popCount 0 = 0 := by rw [popCount_eq]; simp
    by_cases ha : a = 0
    · subst ha; simp [hpc0]
    · by_cases hb : b = 0
      · subst hb; simp [hpc0]
      · have hor : a ||| b ≠ 0 := by
          intro hcontra
          apply ha
          apply Nat.eq_of_testBit_eq
          intro i
          have hx := congrArg (fun x => x.testBit i) hcontra
          simp only [Nat.testBit_or, Nat.zero_testBit] at hx ⊢
          exact (Bool.or_eq_false_iff.mp hx).1
        have hmod : (a ||| b) % 2 = a % 2 + b % 2 := by
          have hand : ¬(a % 2 = 1 ∧ b % 2 = 1) := by
            intro ⟨h1, h2⟩
            have : (a &&& b) % 2 = 1 := Nat.and_mod_two_eq_one.mpr ⟨h1, h2⟩
            rw [h] at this
            omega
          rcases Nat.mod_two_eq_zero_or_one a with h1 | h1 <;>
            rcases Nat.mod_two_eq_zero_or_one b with h2 | h2 <;>
            first
              | (exfalso; exact hand ⟨by omega, by omega⟩)
              | (rcases Nat.mod_two_eq_zero_or_one (a ||| b) with h3 | h3
                 · have := Nat.or_mod_two_eq_one (a := a) (b := b)
                   omega
                 · have := Nat.or_mod_two_eq_one (a := a) (b := b)
                   omega)
        have hdivand : a / 2 &&& b / 2 = 0 := by
          rw [← Nat.and_div_two, h]
        have hlt : a / 2 < a := Nat.div_lt_self (Nat.pos_of_ne_zero ha) (by omega)
        rw [popCount_eq (a ||| b), if_neg hor, Nat.or_div_two, hmod,
          ih (a / 2) hlt (b / 2) hdivand, popCount_eq a, if_neg ha,
          popCount_eq b, if_neg hb]
        ring

theorem popCountBytes_orBytes (a b : List Nat)
    (hlen : a.length = b.length) (hdisj : bytesDisjoint a b) :
    popCountBytes (orBytes a b) = popCountBytes a + popCountBytes b := by
  induction a generalizing b with
  | nil =>
      have : b = [] := List.length_eq_zero.mp (by simpa using hlen.symm)
      subst this; simp [popCountBytes, orBytes]
  | cons x rest ih =>
      cases b with
      | nil => simp at hlen
      | cons y brest =>
          have hhead : x &&& y = 0 := by
            have := hdisj 0
            simpa using this
          have htail : bytesDisjoint rest brest := by
            intro i
            have := hdisj (i + 1)
            simpa using this
          simp only [orBytes, List.zipWith_cons_cons, popCountBytes,
            List.map_cons, List.sum_cons]
          rw [popCount_lor_of_land_eq_zero x y hhead]
          have := ih brest (by simpa using hlen) htail
          simp only [popCountBytes, orBytes] at this
          rw [this]
          ring

theorem orBytes_length (a b : List Nat) (h : a.length = b.length) :
    (orBytes a b).length = a.length := by
  simp [orBytes, h]

theorem getD_orBytes (a b : List Nat) (h : a.length = b.length) (i : Nat) :
    (orBytes a b).getD i 0 = a.getD i 0 ||| b.getD i 0 := by
  induction a generalizing b i with
  | nil =>
      have : b = [] := List.length_eq_zero.mp (by simpa using h.symm)
      subst this; simp [orBytes]
  | cons x rest ih =>
      cases b with
      | nil => simp at h
      | cons y brest =>
          cases i with
          | zero => simp [orBytes]
          | succ i =>
              simp only [orBytes, List.zipWith_cons_cons, List.getD_cons_succ]
              exact ih brest (by simpa using h) i

theorem orBytes_bytes_lt (a b : List Nat) (ha : ∀ x ∈ a, x < 256)
    (hb : ∀ x ∈ b, x < 256) : ∀ x ∈ orBytes a b, x < 256 := by
  induction a generalizing b with
  | nil => simp [orBytes]
  | cons x rest ih =>
      cases b with
      | nil => simp [orBytes]
      | cons y brest =>
          intro z hz
          simp only [orBytes, List.zipWith_cons_cons, List.mem_cons] at hz
          rcases hz with hz | hz
          · subst hz
            have hpow : (2 : Nat) ^ 8 = 256 := by norm_num
            exact lt_of_lt_of_le
              (Nat.or_lt_two_pow (hpow.symm ▸ ha x (by simp))
                (hpow.symm ▸ hb y (by simp)))
              (le_of_eq hpow)
          · exact ih brest (fun u hu => ha u (by simp [hu]))
              (fun u hu => hb u (by simp [hu])) z hz

theorem decode_encode_ledger (raw : List Nat) (h : ∀ b ∈ raw, b < 256) :
    _decode_bitset (_encode_bitset raw) = raw := by
  unfold _decode_bitset _encode_bitset
  rw [b64decode_b64encode]
  · simp [zlibCompress, zlibDecompress]
  · intro b hb
    simp only [zlibCompress, List.mem_cons] at hb
    rcases hb with hb | hb
    · omega
    · exact h b hb

theorem decode_bitset_eq (s : List Char) :
    _decode_bitset s = decode_bitset_zlib_base64 s := rfl

theorem foldl_orBytes_length (rest : List (List Nat)) (x : List Nat) (L : Nat)
    (hx : x.length = L) (hrest : ∀ y ∈ rest, y.length = L) :
    (rest.foldl orBytes x).length = L := by
  induction rest generalizing x with
  | nil => simpa
  | cons y ys ih =>
      simp only [List.foldl_cons]
      have hy : y.length = L := hrest y (by simp)
      exact ih (orBytes x y)
        (by rw [orBytes_length x y (by omega)]; exact hx)
        (fun z hz => hrest z (by simp [hz]))

theorem foldl_orBytes_bytes_lt (rest : List (List Nat)) (x : List Nat)
    (hx : ∀ b ∈ x, b < 256) (hrest : ∀ y ∈ rest, ∀ b ∈ y, b < 256) :
    ∀ b ∈ rest.foldl orBytes x, b < 256 := by
  induction rest generalizing x with
  | nil => simpa
  | cons y ys ih =>
      simp only [List.foldl_cons]
      exact ih (orBytes x y)
        (orBytes_bytes_lt x y hx (hrest y (by simp)))
        (fun z hz => hrest z (by simp [hz]))

theorem getD_foldl_orBytes (rest : List (List Nat)) (x : List Nat) (L : Nat)
    (hx : x.length = L) (hrest : ∀ y ∈ rest, y.length = L) (i : Nat) :
    (rest.foldl orBytes x).getD i 0
      = rest.foldl (fun acc y => acc ||| y.getD i 0) (x.getD i 0) := by
  induction rest generalizing x with
  | nil => simp
  | cons y ys ih =>
      simp only [List.foldl_cons]
      have hy : y.length = L := hrest y (by simp)
      rw [ih (orBytes x y)
        (by rw [orBytes_length x y (by omega)]; exact hx)
        (fun z hz => hrest z (by simp [hz]))]
      rw [getD_orBytes x y (by omega) i]

/-- `rebuild_go` on a `some` accumulator: with all byte lengths equal it
never raises, sums the `selected_cells`, and its decoded result is the
bytewise OR-fold of the decoded inputs. -/
theorem rebuild_go_some (subs : List Subdivision) (acc : List Char)
    (tot : Nat) (L : Nat)
    (haccL : (_decode_bitset acc).length = L)
    (haccB : ∀ b ∈ _decode_bitset acc, b < 256)
    (hlen : ∀ s ∈ subs, (decSub s).length = L)
    (hlt : ∀ s ∈ subs, ∀ b ∈ decSub s, b < 256) :
    ∃ occ, rebuild_go subs (some acc) tot
        = .ok (some occ, tot + (subs.map (·.selected_cells)).sum)
      ∧ _decode_bitset occ
          = subs.foldl (fun a s => orBytes a (decSub s)) (_decode_bitset acc)
      ∧ (∀ b ∈ _decode_bitset occ, b < 256)
      ∧ (_decode_bitset occ).length = L := by
  induction subs generalizing acc tot with
  | nil => exact ⟨acc, by simp [rebuild_go], by simp, haccB, haccL⟩
  | cons s rest ih =>
      have hsL : (decSub s).length = L := hlen s (by simp)
      have hsB : ∀ b ∈ decSub s, b < 256 := hlt s (by simp)
      have hne : ¬ ((_decode_bitset acc).length
          ≠ (_decode_bitset s.selection_bitset_base64).length) := by
        intro hcon
        exact hcon (by rw [haccL]; exact hsL.symm)
      have hor : _bitset_or acc s.selection_bitset_base64
          = .ok (_encode_bitset (orBytes (_decode_bitset acc) (decSub s))) := by
        unfold _bitset_or
        rw [if_neg hne]
        rfl
      have hdec' : _decode_bitset
            (_encode_bitset (orBytes (_decode_bitset acc) (decSub s)))
          = orBytes (_decode_bitset acc) (decSub s) :=
        decode_encode_ledger _ (orBytes_bytes_lt _ _ haccB hsB)
      have hlenS : (decSub s).length = (_decode_bitset acc).length := by
        rw [haccL]; exact hsL
      obtain ⟨occ, hrun, hdec, hB, hL⟩ :=
        ih (_encode_bitset (orBytes (_decode_bitset acc) (decSub s)))
          (tot + s.selected_cells)
          (by rw [hdec', orBytes_length _ _ hlenS.symm]; exact haccL)
          (by rw [hdec']; exact orBytes_bytes_lt _ _ haccB hsB)
          (fun t ht => hlen t (by simp [ht]))
          (fun t ht => hlt t (by simp [ht]))
      refine ⟨occ, ?_, ?_, hB, hL⟩
      · rw [rebuild_go, hor]
        show rebuild_go rest
            (some (_encode_bitset (orBytes (_decode_bitset acc) (decSub s))))
            (tot + s.selected_cells) = _
        rw [hrun]
        simp only [List.map_cons, List.sum_cons]
        rw [Nat.add_assoc]
      · rw [List.foldl_cons, ← hdec', hdec]

theorem except_bind_ok {ε α β : Type} (a : α) (f : α → Except ε β) :
    (Except.ok a >>= f) = f a := rfl

theorem except_bind_error {ε α β : Type} (e : ε) (f : α → Except ε β) :
    ((Except.error e : Except ε α) >>= f) = Except.error e := rfl

/-- Dissection of a successful `add_subdivision` call (owner, validated,
no explicit dataset version): recovers the branch conditions and the exact
updated state. -/
theorem add_subdivision_ok_dissect (sim : Simulation) (new_bitset : List Char)
    (cells sub_id : Nat) (s' : Simulation) (sub : Subdivision)
    (h : add_subdivision sim sim.user_id true new_bitset cells sub_id none
      = .ok (s', some sub, none)) :
    sim.subdivision_count < MAX_SUBDIVISIONS
    ∧ sub = ⟨sub_id, new_bitset, cells⟩
    ∧ s'.subdivisions = sim.subdivisions ++ [sub]
    ∧ s'.subdivision_count = sim.subdivision_count + 1
    ∧ s'.total_selected_cells = sim.total_selected_cells + cells
    ∧ s'.user_id = sim.user_id
    ∧ s'.dataset_version_id = sim.dataset_version_id
    ∧ ((sim.occupied_bitset_base64 = none
        ∧ s'.occupied_bitset_base64 = some new_bitset)
      ∨ (∃ occ, sim.occupied_bitset_base64 = some occ
        ∧ (_decode_bitset occ).length = (_decode_bitset new_bitset).length
        ∧ popCountBytes (List.zipWith (· &&& ·) (_decode_bitset occ)
            (_decode_bitset new_bitset)) = 0
        ∧ s'.occupied_bitset_base64
            = some (_encode_bitset (orBytes (_decode_bitset occ)
                (_decode_bitset new_bitset))))) := by
  unfold add_subdivision at h
  rw [if_neg (by simp)] at h
  by_cases hcap : MAX_SUBDIVISIONS ≤ sim.subdivision_count
  · rw [if_pos hcap] at h
    simp at h
  · rw [if_neg hcap] at h
    rw [if_neg (by simp)] at h
    rw [if_neg (by simp)] at h
    refine ⟨by omega, ?_⟩
    split at h
    next occ heq =>
      unfold _bitset_intersects at h
      by_cases hlen : (_decode_bitset occ).length
          = (_decode_bitset new_bitset).length
      · rw [if_neg (by simpa using hlen), except_bind_ok] at h
        by_cases hpos : 0 < popCountBytes
            (List.zipWith (· &&& ·) (_decode_bitset occ)
              (_decode_bitset new_bitset))
        · rw [if_pos hpos] at h
          simp at h
        · rw [if_neg hpos] at h
          unfold _bitset_or at h
          rw [if_neg (by simpa using hlen), except_bind_ok] at h
          simp only [Except.ok.injEq, Prod.mk.injEq, Option.some.injEq,
            and_true] at h
          obtain ⟨hs', hsub⟩ := h
          subst hs'
          subst hsub
          exact ⟨rfl, rfl, rfl, rfl, rfl, rfl,
            .inr ⟨occ, heq, hlen, by omega, rfl⟩⟩
      · rw [if_pos (by simpa using hlen), except_bind_error] at h
        exact absurd h (by simp)
    next heq =>
      simp only [Except.ok.injEq, Prod.mk.injEq, Option.some.injEq,
        and_true] at h
      obtain ⟨hs', hsub⟩ := h
      subst hs'
      subst hsub
      exact ⟨rfl, rfl, rfl, rfl, rfl, rfl, .inl ⟨heq, rfl⟩⟩

/-- Dissection of a successful `delete_subdivision` call by the owner:
the target existed and the new state is the filtered list with occupied
bitset and totals recomputed by `rebuild_occupied`. -/
theorem delete_subdivision_ok_dissect (sim : Simulation) (sid : Nat)
    (s' : Simulation)
    (h : delete_subdivision sim sim.user_id sid = .ok s') :
    (∃ t ∈ sim.subdivisions, t.id = sid)
    ∧ s'.subdivisions = sim.subdivisions.filter (fun s => s.id ≠ sid)
    ∧ s'.subdivision_count = sim.subdivision_count - 1
    ∧ s'.user_id = sim.user_id
    ∧ s'.dataset_version_id = sim.dataset_version_id
    ∧ rebuild_occupied (sim.subdivisions.filter (fun s => s.id ≠ sid))
        = .ok (s'.occupied_bitset_base64, s'.total_selected_cells) := by
  unfold delete_subdivision at h
  rw [if_neg (by simp)] at h
  split at h
  next hall => exact absurd h (by simp)
  next hall =>
    push_neg at hall
    obtain ⟨t, ht, htid⟩ := hall
    cases hro : rebuild_occupied
        (sim.subdivisions.filter (fun s => s.id ≠ sid)) with
    | error e =>
        rw [hro] at h
        exact absurd h (by simp)
    | ok pr =>
        obtain ⟨occ, tot⟩ := pr
        rw [hro] at h
        simp only [Except.ok.injEq] at h
        subst h
        refine ⟨⟨t, ht, htid⟩, rfl, rfl, rfl, rfl, ?_⟩
        rfl

theorem land_eq_zero_of_lor (a b c : Nat) (ha : a &&& c = 0)
    (hb : b &&& c = 0) : (a ||| b) &&& c = 0 := by
  apply Nat.eq_of_testBit_eq
  intro j
  have h1 := congrArg (fun x => x.testBit j) ha
  have h2 := congrArg (fun x => x.testBit j) hb
  simp only [Nat.testBit_and, Nat.testBit_or, Nat.zero_testBit] at h1 h2 ⊢
  rcases Bool.and_eq_false_iff.mp h1 with h | h <;>
    rcases Bool.and_eq_false_iff.mp h2 with h' | h' <;>
    simp [h, h']

theorem testBit_foldl_lor (ns : List Nat) (init : Nat) (j : Nat) :
    (ns.foldl (· ||| ·) init).testBit j
      = (init.testBit j || ns.any (fun n => n.testBit j)) := by
  induction ns generalizing init with
  | nil => simp
  | cons y ys ih =>
      simp only [List.foldl_cons, List.any_cons]
      rw [ih]
      simp [Nat.testBit_or, Bool.or_assoc]

theorem land_eq_zero_of_mem_foldl_lor (ns : List Nat) (init c x : Nat)
    (hx : x ∈ ns) (h : (ns.foldl (· ||| ·) init) &&& c = 0) :
    x &&& c = 0 := by
  apply Nat.eq_of_testBit_eq
  intro j
  have hbit : ((ns.foldl (· ||| ·) init).testBit j && c.testBit j) = false := by
    have := congrArg (fun v => v.testBit j) h
    simpa [Nat.testBit_and] using this
  rw [testBit_foldl_lor] at hbit
  simp only [Nat.testBit_and, Nat.zero_testBit]
  cases hcx : c.testBit j with
  | false => simp
  | true =>
      cases hxx : x.testBit j with
      | false => simp
      | true =>
          exfalso
          have hany : ns.any (fun n => n.testBit j) = true :=
            List.any_eq_true.mpr ⟨x, hx, hxx⟩
          rw [hany, hcx] at hbit
          simp at hbit

theorem bytesDisjoint_orBytes (a b c : List Nat)
    (hac : bytesDisjoint a c) (hbc : bytesDisjoint b c)
    (hab : a.length = b.length) : bytesDisjoint (orBytes a b) c := by
  intro i
  rw [getD_orBytes a b hab i]
  exact land_eq_zero_of_lor _ _ _ (hac i) (hbc i)

theorem bytesDisjoint_symm (a b : List Nat) (h : bytesDisjoint a b) :
    bytesDisjoint b a := by
  intro i
  have := h i
  rw [Nat.and_comm] at this
  exact this

/-- With unique ids, filtering out `sid` removes exactly the one matching
subdivision. -/
theorem filter_ne_decomp (subs : List Subdivision) (sid : Nat)
    (hnd : (subs.map (·.id)).Nodup) (t : Subdivision) (ht : t ∈ subs)
    (hid : t.id = sid) :
    ∃ l1 l2, subs = l1 ++ t :: l2
      ∧ subs.filter (fun s => s.id ≠ sid) = l1 ++ l2 := by
  obtain ⟨l1, l2, rfl⟩ := List.append_of_mem ht
  refine ⟨l1, l2, rfl, ?_⟩
  rw [List.filter_append, List.filter_cons]
  have hmap : (l1.map (·.id) ++ t.id :: l2.map (·.id)).Nodup := by
    simpa using hnd
  rw [List.nodup_append] at hmap
  obtain ⟨hnd1, hnd2, hdisj⟩ := hmap
  have hl1 : ∀ u ∈ l1, u.id ≠ sid := by
    intro u hu hcontra
    exact hdisj (List.mem_map_of_mem _ hu) (by simp [hcontra, hid])
  have hl2 : ∀ u ∈ l2, u.id ≠ sid := by
    intro u hu hcontra
    rw [List.nodup_cons] at hnd2
    exact hnd2.1 (by
      rw [hid, ← hcontra]
      exact List.mem_map_of_mem _ hu)
  rw [if_neg (by simp [hid])]
  rw [List.filter_eq_self.mpr (by intro u hu; simpa using hl1 u hu),
    List.filter_eq_self.mpr (by intro u hu; simpa using hl2 u hu)]

theorem popCount_pos (n : Nat) (h : n ≠ 0) : 0 < popCount n := by
  induction n using Nat.strong_induction_on with
  | _ n ih =>
    rw [popCount_eq, if_neg h]
    rcases Nat.mod_two_eq_zero_or_one n with h2 | h2
    · have hden : n / 2 ≠ 0 := by omega
      have := ih (n / 2) (Nat.div_lt_self (Nat.pos_of_ne_zero h) (by omega)) hden
      omega
    · omega

theorem popCountBytes_pos (l : List Nat) (x : Nat) (hx : x ∈ l) (hne : x ≠ 0) :
    0 < popCountBytes l := by
  induction l with
  | nil => simp at hx
  | cons y ys ih =>
      simp only [popCountBytes, List.map_cons, List.sum_cons]
      rcases List.mem_cons.mp hx with h | h
      · subst h
        have := popCount_pos x hne
        omega
      · have := ih h
        simp only [popCountBytes] at this
        omega

theorem getD_zipWith_land (a b : List Nat) (h : a.length = b.length) (i : Nat) :
    (List.zipWith (· &&& ·) a b).getD i 0 = a.getD i 0 &&& b.getD i 0 := by
  induction a generalizing b i with
  | nil =>
      have : b = [] := List.length_eq_zero.mp (by simpa using h.symm)
      subst this; simp
  | cons x rest ih =>
      cases b with
      | nil => simp at h
      | cons y brest =>
          cases i with
          | zero => simp
          | succ i =>
              simp only [List.zipWith_cons_cons, List.getD_cons_succ]
              exact ih brest (by simpa using h) i

/-- `foldOr1` over a nonempty list extended by one element. -/
theorem foldOr1_concat (ds : List (List Nat)) (x : List Nat) (hne : ds ≠ []) :
    foldOr1 (ds ++ [x]) = orBytes (foldOr1 ds) x := by
  cases ds with
  | nil => exact absurd rfl hne
  | cons d rest => simp [foldOr1, List.foldl_append]

theorem foldOr1_length (ds : List (List Nat)) (L : Nat)
    (h : ∀ d ∈ ds, d.length = L) (hne : ds ≠ []) :
    (foldOr1 ds).length = L := by
  cases ds with
  | nil => exact absurd rfl hne
  | cons d rest =>
      exact foldl_orBytes_length rest d L (h d (by simp))
        (fun y hy => h y (by simp [hy]))

theorem foldOr1_bytes_lt (ds : List (List Nat))
    (h : ∀ d ∈ ds, ∀ b ∈ d, b < 256) :
    ∀ b ∈ foldOr1 ds, b < 256 := by
  cases ds with
  | nil => simp [foldOr1]
  | cons d rest =>
      exact foldl_orBytes_bytes_lt rest d (h d (by simp))
        (fun y hy => h y (by simp [hy]))

theorem land_eq_zero_init_foldl_lor (ns : List Nat) (init c : Nat)
    (h : (ns.foldl (· ||| ·) init) &&& c = 0) : init &&& c = 0 := by
  apply Nat.eq_of_testBit_eq
  intro j
  have hbit : ((ns.foldl (· ||| ·) init).testBit j && c.testBit j) = false := by
    have := congrArg (fun v => v.testBit j) h
    simpa [Nat.testBit_and] using this
  rw [testBit_foldl_lor] at hbit
  simp only [Nat.testBit_and, Nat.zero_testBit]
  cases hcx : c.testBit j with
  | false => simp
  | true =>
      cases hix : init.testBit j with
      | false => simp
      | true =>
          exfalso
          rw [hix, hcx] at hbit
          simp at hbit

/-- Any member of a family is bytewise disjoint from anything the family's
OR is disjoint from. -/
theorem bytesDisjoint_of_mem_foldOr1 (ds : List (List Nat)) (L : Nat)
    (hlen : ∀ d ∈ ds, d.length = L) (x c : List Nat) (hx : x ∈ ds)
    (hdisj : bytesDisjoint (foldOr1 ds) c) : bytesDisjoint x c := by
  cases ds with
  | nil => simp at hx
  | cons d rest =>
      intro i
      have hfold := hdisj i
      rw [foldOr1] at hfold
      rw [getD_foldl_orBytes rest d L (hlen d (by simp))
        (fun y hy => hlen y (by simp [hy])) i] at hfold
      rw [← List.foldl_map (fun y : List Nat => y.getD i 0) (· ||| ·) rest
        (d.getD i 0)] at hfold
      rcases List.mem_cons.mp hx with h | h
      · subst h
        exact land_eq_zero_init_foldl_lor _ _ _ hfold
      · exact land_eq_zero_of_mem_foldl_lor
          (rest.map (fun y => y.getD i 0)) (d.getD i 0) (c.getD i 0)
          (x.getD i 0) (List.mem_map_of_mem _ h) hfold

theorem popCountBytes_foldl_orBytes (rest : List (List Nat)) (x : List Nat)
    (L : Nat) (hx : x.length = L) (hrest : ∀ y ∈ rest, y.length = L)
    (hdisj_x : ∀ y ∈ rest, bytesDisjoint x y)
    (hdisj : rest.Pairwise bytesDisjoint) :
    popCountBytes (rest.foldl orBytes x)
      = popCountBytes x + (rest.map popCountBytes).sum := by
  induction rest generalizing x with
  | nil => simp
  | cons y ys ih =>
      simp only [List.foldl_cons, List.map_cons, List.sum_cons]
      have hy : y.length = L := hrest y (by simp)
      have hxy : bytesDisjoint x y := hdisj_x y (by simp)
      obtain ⟨hy_ys, hys⟩ := List.pairwise_cons.mp hdisj
      rw [ih (orBytes x y) (by rw [orBytes_length _ _ (by omega)]; omega)
        (fun z hz => hrest z (by simp [hz]))
        (fun z hz => bytesDisjoint_orBytes x y z (hdisj_x z (by simp [hz]))
          (hy_ys z hz) (by omega))
        hys]
      rw [popCountBytes_orBytes x y (by omega) hxy]
      ring

theorem popCountBytes_foldOr1 (ds : List (List Nat)) (L : Nat)
    (hlen : ∀ d ∈ ds, d.length = L) (hdisj : ds.Pairwise bytesDisjoint) :
    popCountBytes (foldOr1 ds) = (ds.map popCountBytes).sum := by
  cases ds with
  | nil => simp [foldOr1, popCountBytes]
  | cons d rest =>
      obtain ⟨hd_rest, hrest⟩ := List.pairwise_cons.mp hdisj
      rw [foldOr1, popCountBytes_foldl_orBytes rest d L (hlen d (by simp))
        (fun y hy => hlen y (by simp [hy])) hd_rest hrest]
      simp

theorem bytesDisjoint_of_popCount_land_zero (a b : List Nat)
    (hlen : a.length = b.length)
    (h : popCountBytes (List.zipWith (· &&& ·) a b) = 0) :
    bytesDisjoint a b := by
  intro i
  by_cases hi : i < a.length
  · rw [← getD_zipWith_land a b hlen i]
    by_contra hne
    have hiz : i < (List.zipWith (· &&& ·) a b).length := by
      rw [List.length_zipWith]; omega
    have hmem : (List.zipWith (· &&& ·) a b).getD i 0
        ∈ List.zipWith (· &&& ·) a b := by
      rw [List.getD_eq_getElem _ _ hiz]
      exact List.getElem_mem _
    have := popCountBytes_pos _ _ hmem hne
    omega
  · rw [List.getD_eq_default _ _ (by omega)]
    simp

/-! ### The ledger invariant and reachable states -/

/-- Invariant of the overlap ledger: subdivision bitsets are well formed
(bytes, equal lengths), carry their own population counts, are pairwise
disjoint, and the occupied bitset is exactly their OR, with
`subdivision_count`/`total_selected_cells` consistent. -/
structure Inv (sim : Simulation) : Prop where
  count_eq : sim.subdivision_count = sim.subdivisions.length
  ids_nodup : (sim.subdivisions.map (·.id)).Nodup
  bytes_lt : ∀ s ∈ sim.subdivisions, ∀ b ∈ decSub s, b < 256
  len_eq : ∀ s ∈ sim.subdivisions, ∀ t ∈ sim.subdivisions,
      (decSub s).length = (decSub t).length
  cells_eq : ∀ s ∈ sim.subdivisions,
      s.selected_cells = popCountBytes (decSub s)
  disj : sim.subdivisions.Pairwise
      (fun s t => bytesDisjoint (decSub s) (decSub t))
  occ_none : sim.occupied_bitset_base64 = none → sim.subdivisions = []
  occ_some : ∀ occ, sim.occupied_bitset_base64 = some occ →
      sim.subdivisions ≠ []
      ∧ _decode_bitset occ = foldOr1 (sim.subdivisions.map decSub)
  total_eq : sim.total_selected_cells
      = (sim.subdivisions.map (·.selected_cells)).sum

/-- States reachable from a freshly created simulation via successful
`add_subdivision` / `delete_subdivision` calls by the owner.  The `add`
hypotheses record the contract of the caller (`add_subdivision`'s router):
the candidate bitset comes from `validate_and_rasterize_geometry`, i.e. it
is a zlib+base64 encoding of raw bytes, `selected_cells` is the selection's
population count, and the database assigns a fresh subdivision id. -/
inductive Reachable : Simulation → Prop where
  | init (user_id dsv : Nat) : Reachable (create_simulation user_id dsv)
  | add (sim : Simulation) (raw : List Nat) (level sub_id : Nat)
      (s' : Simulation) (sub : Subdivision) :
      Reachable sim →
      (∀ b ∈ raw, b < 256) →
      (∀ t ∈ sim.subdivisions, t.id ≠ sub_id) →
      add_subdivision sim sim.user_id true
          (encode_bitset_zlib_base64 raw level) (popCountBytes raw) sub_id
          none
        = .ok (s', some sub, none) →
      Reachable s'
  | del (sim : Simulation) (sub_id : Nat) (s' : Simulation) :
      Reachable sim →
      delete_subdivision sim sim.user_id sub_id = .ok s' →
      Reachable s'

theorem inv_create (user_id dsv : Nat) : Inv (create_simulation user_id dsv) := by
  constructor <;> simp [create_simulation]

theorem inv_add (sim : Simulation) (raw : List Nat) (level sub_id : Nat)
    (s' : Simulation) (sub : Subdivision) (hinv : Inv sim)
    (hraw : ∀ b ∈ raw, b < 256)
    (hfresh : ∀ t ∈ sim.subdivisions, t.id ≠ sub_id)
    (h : add_subdivision sim sim.user_id true
        (encode_bitset_zlib_base64 raw level) (popCountBytes raw) sub_id none
      = .ok (s', some sub, none)) : Inv s' := by
  obtain ⟨hcap, hsub, hsubs, hcount, htotal, huser, hdsv, hocc⟩ :=
    add_subdivision_ok_dissect sim _ _ _ s' sub h
  have hdecnew : _decode_bitset (encode_bitset_zlib_base64 raw level)
      = raw := by
    rw [decode_bitset_eq]
    exact decode_encode_bitset raw level hraw
  have hdecsub : decSub sub = raw := by
    rw [hsub]
    exact hdecnew
  rcases hocc with ⟨hnone, hocc'⟩ | ⟨occ, hsome, hlen, hpop, hocc'⟩
  · have hempty : sim.subdivisions = [] := hinv.occ_none hnone
    refine ⟨?_, ?_, ?_, ?_, ?_, ?_, ?_, ?_, ?_⟩
    · rw [hcount, hsubs, hempty, hinv.count_eq, hempty]; simp
    · rw [hsubs, hempty]; simp
    · intro s hs
      rw [hsubs, hempty] at hs
      simp only [List.nil_append, List.mem_singleton] at hs
      subst hs
      rw [hdecsub]; exact hraw
    · intro s hs t ht
      rw [hsubs, hempty] at hs ht
      simp only [List.nil_append, List.mem_singleton] at hs ht
      subst hs; subst ht; rfl
    · intro s hs
      rw [hsubs, hempty] at hs
      simp only [List.nil_append, List.mem_singleton] at hs
      subst hs
      rw [hdecsub, hsub]
    · rw [hsubs, hempty]; simp
    · intro habs
      rw [hocc'] at habs
      cases habs
    · intro occ2 hocc2
      rw [hocc'] at hocc2
      obtain rfl : encode_bitset_zlib_base64 raw level = occ2 :=
        (Option.some.injEq _ _).mp hocc2
      refine ⟨by rw [hsubs, hempty]; simp, ?_⟩
      rw [hsubs, hempty]
      simp only [List.nil_append, List.map_cons, List.map_nil]
      rw [show foldOr1 [decSub sub] = decSub sub from rfl]
      rw [hdecsub, hdecnew]
    · rw [htotal, hsubs, hempty, hinv.total_eq, hempty, hsub]; simp
  · obtain ⟨hne_subs, hocc_eq⟩ := hinv.occ_some occ hsome
    obtain ⟨t0, ht0⟩ := List.exists_mem_of_ne_nil sim.subdivisions hne_subs
    have hall_len : ∀ s ∈ sim.subdivisions,
        (decSub s).length = (decSub t0).length :=
      fun s hs => hinv.len_eq s hs t0 ht0
    have hds_len : ∀ d ∈ sim.subdivisions.map decSub,
        d.length = (decSub t0).length := by
      intro d hd
      obtain ⟨s, hs, rfl⟩ := List.mem_map.mp hd
      exact hall_len s hs
    have hds_ne : sim.subdivisions.map decSub ≠ [] := by
      simpa using hne_subs
    have hds_bytes : ∀ d ∈ sim.subdivisions.map decSub, ∀ b ∈ d, b < 256 := by
      intro d hd
      obtain ⟨s, hs, rfl⟩ := List.mem_map.mp hd
      exact hinv.bytes_lt s hs
    have hoccL : (_decode_bitset occ).length = (decSub t0).length := by
      rw [hocc_eq]
      exact foldOr1_length _ _ hds_len hds_ne
    have hrawL : raw.length = (decSub t0).length := by
      rw [← hdecnew, ← hlen, hoccL]
    have hocc_bytes : ∀ b ∈ _decode_bitset occ, b < 256 := by
      rw [hocc_eq]
      exact foldOr1_bytes_lt _ hds_bytes
    have hdisj_occ_new : bytesDisjoint (_decode_bitset occ) raw := by
      have := bytesDisjoint_of_popCount_land_zero (_decode_bitset occ)
        (_decode_bitset (encode_bitset_zlib_base64 raw level)) hlen hpop
      rwa [hdecnew] at this
    have hdisj_each : ∀ s ∈ sim.subdivisions,
        bytesDisjoint (decSub s) raw := by
      intro s hs
      apply bytesDisjoint_of_mem_foldOr1 (sim.subdivisions.map decSub)
        (decSub t0).length hds_len (decSub s) raw
        (List.mem_map_of_mem _ hs)
      rw [← hocc_eq]
      exact hdisj_occ_new
    have hdec_occ' : _decode_bitset (_encode_bitset
          (orBytes (_decode_bitset occ)
            (_decode_bitset (encode_bitset_zlib_base64 raw level))))
        = orBytes (_decode_bitset occ) raw := by
      rw [hdecnew]
      exact decode_encode_ledger _ (orBytes_bytes_lt _ _ hocc_bytes hraw)
    have hmem_all : ∀ s ∈ sim.subdivisions ++ [sub],
        (decSub s).length = (decSub t0).length := by
      intro s hs
      rcases List.mem_append.mp hs with hs | hs
      · exact hall_len s hs
      · simp only [List.mem_singleton] at hs
        subst hs
        rw [hdecsub]; exact hrawL
    refine ⟨?_, ?_, ?_, ?_, ?_, ?_, ?_, ?_, ?_⟩
    · rw [hcount, hsubs, hinv.count_eq]; simp
    · rw [hsubs, List.map_append]
      rw [List.nodup_append]
      refine ⟨hinv.ids_nodup, by simp, ?_⟩
      intro x hx
      obtain ⟨u, hu, rfl⟩ := List.mem_map.mp hx
      simp only [List.map_cons, List.map_nil, List.mem_singleton, hsub]
      exact hfresh u hu
    · intro s hs
      rw [hsubs] at hs
      rcases List.mem_append.mp hs with hs | hs
      · exact hinv.bytes_lt s hs
      · simp only [List.mem_singleton] at hs
        subst hs
        rw [hdecsub]; exact hraw
    · intro s hs t ht
      rw [hsubs] at hs ht
      rw [hmem_all s hs, hmem_all t ht]
    · intro s hs
      rw [hsubs] at hs
      rcases List.mem_append.mp hs with hs | hs
      · exact hinv.cells_eq s hs
      · simp only [List.mem_singleton] at hs
        subst hs
        rw [hdecsub, hsub]
    · rw [hsubs]
      rw [List.pairwise_append]
      refine ⟨hinv.disj, by simp, ?_⟩
      intro s hs t ht
      simp only [List.mem_singleton] at ht
      subst ht
      rw [hdecsub]
      exact hdisj_each s hs
    · intro habs
      rw [hocc'] at habs
      cases habs
    · intro occ2 hocc2
      rw [hocc'] at hocc2
      obtain rfl : _ = occ2 := (Option.some.injEq _ _).mp hocc2
      refine ⟨by rw [hsubs]; simp, ?_⟩
      rw [hdec_occ', hsubs, List.map_append, hocc_eq]
      simp only [List.map_cons, List.map_nil]
      rw [foldOr1_concat _ _ hds_ne, hdecsub]
    · rw [htotal, hsubs, List.map_append, hinv.total_eq, hsub]
      simp

theorem inv_del (sim : Simulation) (sid : Nat) (s' : Simulation)
    (hinv : Inv sim)
    (h : delete_subdivision sim sim.user_id sid = .ok s') : Inv s' := by
  obtain ⟨⟨t, ht, htid⟩, hsubs, hcount, huser, hdsv, hro⟩ :=
    delete_subdivision_ok_dissect sim sid s' h
  obtain ⟨l1, l2, hdecomp, hfilter⟩ :=
    filter_ne_decomp sim.subdivisions sid hinv.ids_nodup t ht htid
  have hrem_mem : ∀ s ∈ sim.subdivisions.filter (fun s => s.id ≠ sid),
      s ∈ sim.subdivisions := fun s hs => List.mem_of_mem_filter hs
  have hfil_sublist :
      (sim.subdivisions.filter (fun s => s.id ≠ sid)).Sublist
        sim.subdivisions := List.filter_sublist _
  have hlen_count :
      (sim.subdivisions.filter (fun s => s.id ≠ sid)).length
        = sim.subdivisions.length - 1 := by
    rw [hfilter, hdecomp]
    simp only [List.length_append, List.length_cons]
    omega
  refine ⟨?_, ?_, ?_, ?_, ?_, ?_, ?_, ?_, ?_⟩
  · rw [hcount, hsubs, hlen_count, hinv.count_eq]
  · rw [hsubs]
    exact hinv.ids_nodup.sublist (hfil_sublist.map _)
  · intro s hs
    rw [hsubs] at hs
    exact hinv.bytes_lt s (hrem_mem s hs)
  · intro s hs u hu
    rw [hsubs] at hs hu
    exact hinv.len_eq s (hrem_mem s hs) u (hrem_mem u hu)
  · intro s hs
    rw [hsubs] at hs
    exact hinv.cells_eq s (hrem_mem s hs)
  · rw [hsubs]
    exact hinv.disj.sublist hfil_sublist
  · -- occ_none
    intro habs
    rw [hsubs]
    cases hrem : sim.subdivisions.filter (fun s => s.id ≠ sid) with
    | nil => rfl
    | cons r rest =>
        exfalso
        have hrL : ∀ u ∈ rest, (decSub u).length = (decSub r).length := by
          intro u hu
          have hu' : u ∈ sim.subdivisions :=
            hrem_mem u (by rw [hrem]; simp [hu])
          have hr' : r ∈ sim.subdivisions :=
            hrem_mem r (by rw [hrem]; simp)
          exact hinv.len_eq u hu' r hr'
        have hrB : ∀ u ∈ rest, ∀ b ∈ decSub u, b < 256 := by
          intro u hu
          exact hinv.bytes_lt u (hrem_mem u (by rw [hrem]; simp [hu]))
        obtain ⟨occ, hrun, -, -, -⟩ :=
          rebuild_go_some rest r.selection_bitset_base64
            (0 + r.selected_cells) (decSub r).length rfl
            (hinv.bytes_lt r (hrem_mem r (by rw [hrem]; simp)))
            hrL hrB
        rw [hrem] at hro
        rw [show rebuild_occupied (r :: rest)
            = rebuild_go rest (some r.selection_bitset_base64)
              (0 + r.selected_cells) from rfl, hrun] at hro
        simp only [Except.ok.injEq, Prod.mk.injEq] at hro
        rw [habs] at hro
        exact Option.noConfusion hro.1
  · -- occ_some
    intro occ2 hocc2
    cases hrem : sim.subdivisions.filter (fun s => s.id ≠ sid) with
    | nil =>
        exfalso
        rw [hrem] at hro
        rw [show rebuild_occupied ([] : List Subdivision) = .ok (none, 0)
          from rfl] at hro
        simp only [Except.ok.injEq, Prod.mk.injEq] at hro
        rw [hocc2] at hro
        exact Option.noConfusion hro.1
    | cons r rest =>
        have hrL : ∀ u ∈ rest, (decSub u).length = (decSub r).length := by
          intro u hu
          have hu' : u ∈ sim.subdivisions :=
            hrem_mem u (by rw [hrem]; simp [hu])
          have hr' : r ∈ sim.subdivisions :=
            hrem_mem r (by rw [hrem]; simp)
          exact hinv.len_eq u hu' r hr'
        have hrB : ∀ u ∈ rest, ∀ b ∈ decSub u, b < 256 := by
          intro u hu
          exact hinv.bytes_lt u (hrem_mem u (by rw [hrem]; simp [hu]))
        obtain ⟨occ, hrun, hdec, hB, hL⟩ :=
          rebuild_go_some rest r.selection_bitset_base64
            (0 + r.selected_cells) (decSub r).length rfl
            (hinv.bytes_lt r (hrem_mem r (by rw [hrem]; simp)))
            hrL hrB
        rw [hrem] at hro
        rw [show rebuild_occupied (r :: rest)
            = rebuild_go rest (some r.selection_bitset_base64)
              (0 + r.selected_cells) from rfl, hrun] at hro
        simp only [Except.ok.injEq, Prod.mk.injEq] at hro
        rw [hocc2] at hro
        obtain rfl : occ = occ2 := by
          have := hro.1
          exact (Option.some.injEq _ _).mp this
        constructor
        · rw [hsubs, hrem]; simp
        · rw [hsubs, hrem]
          simp only [List.map_cons]
          rw [show foldOr1 (decSub r :: rest.map decSub)
              = (rest.map decSub).foldl orBytes (decSub r) from rfl]
          rw [List.foldl_map]
          exact hdec
  · -- total_eq
    cases hrem : sim.subdivisions.filter (fun s => s.id ≠ sid) with
    | nil =>
        rw [hrem] at hro
        rw [show rebuild_occupied ([] : List Subdivision) = .ok (none, 0)
          from rfl] at hro
        simp only [Except.ok.injEq, Prod.mk.injEq] at hro
        rw [hsubs, hrem, ← hro.2]
        simp
    | cons r rest =>
        have hrL : ∀ u ∈ rest, (decSub u).length = (decSub r).length := by
          intro u hu
          have hu' : u ∈ sim.subdivisions :=
            hrem_mem u (by rw [hrem]; simp [hu])
          have hr' : r ∈ sim.subdivisions :=
            hrem_mem r (by rw [hrem]; simp)
          exact hinv.len_eq u hu' r hr'
        have hrB : ∀ u ∈ rest, ∀ b ∈ decSub u, b < 256 := by
          intro u hu
          exact hinv.bytes_lt u (hrem_mem u (by rw [hrem]; simp [hu]))
        obtain ⟨occ, hrun, -, -, -⟩ :=
          rebuild_go_some rest r.selection_bitset_base64
            (0 + r.selected_cells) (decSub r).length rfl
            (hinv.bytes_lt r (hrem_mem r (by rw [hrem]; simp)))
            hrL hrB
        rw [hrem] at hro
        rw [show rebuild_occupied (r :: rest)
            = rebuild_go rest (some r.selection_bitset_base64)
              (0 + r.selected_cells) from rfl, hrun] at hro
        simp only [Except.ok.injEq, Prod.mk.injEq] at hro
        rw [hsubs, hrem, ← hro.2]
        simp only [List.map_cons, List.sum_cons]
        omega

theorem reachable_inv (sim : Simulation) (h : Reachable sim) : Inv sim := by
  induction h with
  | init user_id dsv => exact inv_create user_id dsv
  | add sim raw level sub_id s' sub _ hraw hfresh hadd ih =>
      exact inv_add sim raw level sub_id s' sub ih hraw hfresh hadd
  | del sim sub_id s' _ hdel ih =>
      exact inv_del sim sub_id s' ih hdel

theorem overlap_pos (a b : List Nat) (hlen : a.length = b.length)
    (hshare : ∃ i, a.getD i 0 &&& b.getD i 0 ≠ 0) :
    0 < popCountBytes (List.zipWith (· &&& ·) a b) := by
  obtain ⟨i, hi⟩ := hshare
  have hilt : i < a.length := by
    by_contra hcon
    rw [List.getD_eq_default _ _ (by omega)] at hi
    simp at hi
  have hiz : i < (List.zipWith (· &&& ·) a b).length := by
    rw [List.length_zipWith]; omega
  have hmem : (List.zipWith (· &&& ·) a b).getD i 0
      ∈ List.zipWith (· &&& ·) a b := by
    rw [List.getD_eq_getElem _ _ hiz]
    exact List.getElem_mem _
  apply popCountBytes_pos _ _ hmem
  rw [getD_zipWith_land a b hlen i]
  exact hi

/-- C9: when the simulation already holds `MAX_SUBDIVISIONS = 100`
subdivisions, `add_subdivision` returns the structured user-recoverable
payload `MAX_SUBDIVISIONS_EXCEEDED` (it does not raise) and leaves the
state unchanged. -/
theorem add_subdivision_max_subdivisions (sim : Simulation) (user_id : Nat)
    (validation_ok : Bool) (new_bitset : List Char) (cells sub_id : Nat)
    (dsv : Option Nat) (huser : sim.user_id = user_id)
    (hfull : sim.subdivision_count = 100) :
    MAX_SUBDIVISIONS = 100
    ∧ add_subdivision sim user_id validation_ok new_bitset cells sub_id dsv
      = .ok (sim, none, some .MAX_SUBDIVISIONS_EXCEEDED) := by
  refine ⟨rfl, ?_⟩
  unfold add_subdivision
  rw [if_neg (by simp [huser]),
    if_pos (by rw [hfull]; simp [MAX_SUBDIVISIONS])]

/-- Closed witness for `add_subdivision_max_subdivisions` at a full
simulation. -/
theorem add_subdivision_max_subdivisions_witness :
    MAX_SUBDIVISIONS = 100
    ∧ add_subdivision ⟨1, 7, none, 100, 0, []⟩ 1 true [] 0 0 none
      = .ok (⟨1, 7, none, 100, 0, []⟩, none,
          some .MAX_SUBDIVISIONS_EXCEEDED) :=
  add_subdivision_max_subdivisions ⟨1, 7, none, 100, 0, []⟩ 1 true [] 0 0
    none rfl rfl

/-- C3: with an occupied bitset present, a candidate whose decoded bitset
shares a set bit with it is rejected with the structured (returned, not
raised) payload `SUBDIVISION_OVERLAP` and the state is unchanged; a
candidate whose decoded bitset has a different byte length instead raises
the fatal `BITSET_DIMENSION_MISMATCH` error. -/
theorem add_subdivision_overlap_mismatch (sim : Simulation) (user_id : Nat)
    (new_bitset new_bitset2 : List Char) (cells cells2 sub_id sub_id2 : Nat)
    (occ : List Char)
    (huser : sim.user_id = user_id)
    (hcap : sim.subdivision_count < MAX_SUBDIVISIONS)
    (hocc : sim.occupied_bitset_base64 = some occ)
    (hlen : (_decode_bitset occ).length = (_decode_bitset new_bitset).length)
    (hshare : ∃ i, (_decode_bitset occ).getD i 0
        &&& (_decode_bitset new_bitset).getD i 0 ≠ 0)
    (hlen2 : (_decode_bitset occ).length
        ≠ (_decode_bitset new_bitset2).length) :
    add_subdivision sim user_id true new_bitset cells sub_id none
      = .ok (sim, none, some .SUBDIVISION_OVERLAP)
    ∧ add_subdivision sim user_id true new_bitset2 cells2 sub_id2 none
      = .error .BITSET_DIMENSION_MISMATCH := by
  constructor
  · unfold add_subdivision
    rw [if_neg (by simp [huser]), if_neg (by omega), if_neg (by simp),
      if_neg (by simp)]
    split
    next occ' heq =>
      obtain rfl : occ' = occ := by
        rw [hocc] at heq
        exact ((Option.some.injEq _ _).mp heq.symm)
      unfold _bitset_intersects
      rw [if_neg (by simp [hlen]), except_bind_ok,
        if_pos (overlap_pos _ _ hlen hshare)]
    next heq =>
      rw [hocc] at heq
      exact Option.noConfusion heq
  · unfold add_subdivision
    rw [if_neg (by simp [huser]), if_neg (by omega), if_neg (by simp),
      if_neg (by simp)]
    split
    next occ' heq =>
      obtain rfl : occ' = occ := by
        rw [hocc] at heq
        exact ((Option.some.injEq _ _).mp heq.symm)
      unfold _bitset_intersects
      rw [if_pos (by simpa using hlen2), except_bind_error]
    next heq =>
      rw [hocc] at heq
      exact Option.noConfusion heq

/-- Concrete one-byte example states used by the closed witnesses. -/
def simA : Simulation := create_simulation 1 7

def subB : Subdivision :=
  ⟨5, encode_bitset_zlib_base64 [3] 9, popCountBytes [3]⟩

def simB : Simulation :=
  { user_id := 1
    dataset_version_id := 7
    occupied_bitset_base64 := some (encode_bitset_zlib_base64 [3] 9)
    subdivision_count := 0 + 1
    total_selected_cells := 0 + popCountBytes [3]
    subdivisions := [subB] }

def simC : Simulation :=
  { user_id := 1
    dataset_version_id := 7
    occupied_bitset_base64 := none
    subdivision_count := 1 - 1
    total_selected_cells := 0
    subdivisions := [] }

theorem reachB : Reachable simB := by
  apply Reachable.add simA [3] 9 5 simB subB (Reachable.init 1 7)
  · intro b hb
    fin_cases hb
    omega
  · intro t ht
    simp [simA, create_simulation] at ht
  · rfl

/-- Closed witness for `add_subdivision_overlap_mismatch`: the one-byte
state `simB` (occupied byte `0x03`) rejects an overlapping one-byte
candidate (`0x01`) with `SUBDIVISION_OVERLAP` and raises
`BITSET_DIMENSION_MISMATCH` for a two-byte candidate. -/
theorem add_subdivision_overlap_mismatch_witness :
    add_subdivision simB 1 true (encode_bitset_zlib_base64 [1] 9) 1 6 none
      = .ok (simB, none, some .SUBDIVISION_OVERLAP)
    ∧ add_subdivision simB 1 true (encode_bitset_zlib_base64 [1, 0] 9) 2 7
        none
      = .error .BITSET_DIMENSION_MISMATCH :=
  add_subdivision_overlap_mismatch simB 1
    (encode_bitset_zlib_base64 [1] 9) (encode_bitset_zlib_base64 [1, 0] 9)
    1 2 6 7 (encode_bitset_zlib_base64 [3] 9) rfl (by decide) rfl
    (by decide) ⟨0, by decide⟩ (by decide)

/-- C4: in every state reachable from a fresh simulation by successful
adds and deletes, the decoded bitsets of distinct subdivisions are pairwise
disjoint, the occupied bitset is exactly the OR of all subdivisions'
bitsets (absent exactly when there are none), and `total_selected_cells`
equals the sum of the subdivisions' `selected_cells`, each of which is the
population count of its bitset, so the total is also the population count
of the occupied bitset. -/
theorem reachable_disjoint_union (sim : Simulation) (h : Reachable sim) :
    sim.subdivisions.Pairwise
        (fun s t => bytesDisjoint (decSub s) (decSub t))
    ∧ (sim.occupied_bitset_base64 = none → sim.subdivisions = [])
    ∧ (∀ occ, sim.occupied_bitset_base64 = some occ →
        sim.subdivisions ≠ []
        ∧ _decode_bitset occ = foldOr1 (sim.subdivisions.map decSub))
    ∧ sim.total_selected_cells
        = (sim.subdivisions.map (·.selected_cells)).sum
    ∧ (∀ s ∈ sim.subdivisions,
        s.selected_cells = popCountBytes (decSub s))
    ∧ (∀ occ, sim.occupied_bitset_base64 = some occ →
        sim.total_selected_cells = popCountBytes (_decode_bitset occ))
    ∧ (sim.occupied_bitset_base64 = none →
        sim.total_selected_cells = 0) := by
  have hinv := reachable_inv sim h
  refine ⟨hinv.disj, hinv.occ_none, hinv.occ_some, hinv.total_eq,
    hinv.cells_eq, ?_, ?_⟩
  · intro occ hocc
    obtain ⟨hne, hocc_eq⟩ := hinv.occ_some occ hocc
    obtain ⟨t0, ht0⟩ := List.exists_mem_of_ne_nil _ hne
    have hds_len : ∀ d ∈ sim.subdivisions.map decSub,
        d.length = (decSub t0).length := by
      intro d hd
      obtain ⟨s, hs, rfl⟩ := List.mem_map.mp hd
      exact hinv.len_eq s hs t0 ht0
    have hds_disj : (sim.subdivisions.map decSub).Pairwise bytesDisjoint :=
      List.pairwise_map.mpr hinv.disj
    rw [hocc_eq,
      popCountBytes_foldOr1 _ (decSub t0).length hds_len hds_disj,
      hinv.total_eq, List.map_map]
    congr 1
    exact List.map_congr_left (fun s hs => hinv.cells_eq s hs)
  · intro hnone
    rw [hinv.total_eq, hinv.occ_none hnone]
    simp

/-- Closed witness for `reachable_disjoint_union` at the one-subdivision
reachable state `simB`. -/
theorem reachable_disjoint_union_witness :
    simB.subdivisions.Pairwise
        (fun s t => bytesDisjoint (decSub s) (decSub t))
    ∧ (simB.occupied_bitset_base64 = none → simB.subdivisions = [])
    ∧ (∀ occ, simB.occupied_bitset_base64 = some occ →
        simB.subdivisions ≠ []
        ∧ _decode_bitset occ = foldOr1 (simB.subdivisions.map decSub))
    ∧ simB.total_selected_cells
        = (simB.subdivisions.map (·.selected_cells)).sum
    ∧ (∀ s ∈ simB.subdivisions,
        s.selected_cells = popCountBytes (decSub s))
    ∧ (∀ occ, simB.occupied_bitset_base64 = some occ →
        simB.total_selected_cells = popCountBytes (_decode_bitset occ))
    ∧ (simB.occupied_bitset_base64 = none →
        simB.total_selected_cells = 0) :=
  reachable_disjoint_union simB reachB

/-- C5: after a successful `delete_subdivision`, the remaining subdivision
list is the old one minus the target, the occupied bitset is the OR of the
remaining subdivisions' decoded bitsets recomputed from scratch (`none`
exactly when none remain), `total_selected_cells` is the sum of the
remaining `selected_cells`, and `subdivision_count` decreases by exactly
one; removing the only subdivision yields an absent occupied bitset and a
zero total. -/
theorem delete_subdivision_recompute (sim : Simulation) (sid : Nat)
    (s' : Simulation) (hreach : Reachable sim)
    (h : delete_subdivision sim sim.user_id sid = .ok s') :
    s'.subdivisions = sim.subdivisions.filter (fun s => s.id ≠ sid)
    ∧ (s'.occupied_bitset_base64 = none → s'.subdivisions = [])
    ∧ (∀ occ, s'.occupied_bitset_base64 = some occ →
        s'.subdivisions ≠ []
        ∧ _decode_bitset occ = foldOr1 (s'.subdivisions.map decSub))
    ∧ s'.total_selected_cells
        = (s'.subdivisions.map (·.selected_cells)).sum
    ∧ s'.subdivision_count + 1 = sim.subdivision_count
    ∧ (∀ u, sim.subdivisions = [u] →
        s'.occupied_bitset_base64 = none ∧ s'.total_selected_cells = 0) := by
  have hinv := reachable_inv sim hreach
  have hinv' := inv_del sim sid s' hinv h
  obtain ⟨⟨t, ht, htid⟩, hsubs, hcount, -, -, -⟩ :=
    delete_subdivision_ok_dissect sim sid s' h
  have hpos : 1 ≤ sim.subdivision_count := by
    rw [hinv.count_eq]
    cases hcase : sim.subdivisions with
    | nil => rw [hcase] at ht; simp at ht
    | cons a rest => simp
  have hempty_case : ∀ u, sim.subdivisions = [u] → s'.subdivisions = [] := by
    intro u hu
    rw [hsubs, hu]
    have : u = t := by
      rw [hu] at ht
      have := List.mem_singleton.mp ht
      exact this.symm
    subst this
    simp [htid]
  refine ⟨hsubs, hinv'.occ_none, hinv'.occ_some, hinv'.total_eq,
    by omega, ?_⟩
  intro u hu
  have hnil := hempty_case u hu
  constructor
  · by_cases hocc : s'.occupied_bitset_base64 = none
    · exact hocc
    · obtain ⟨occ, hocc'⟩ := Option.ne_none_iff_exists'.mp hocc
      exact absurd hnil (hinv'.occ_some occ hocc').1
  · rw [hinv'.total_eq, hnil]
    simp

/-- Closed witness for `delete_subdivision_recompute`: deleting the only
subdivision of `simB` yields the empty state `simC`. -/
theorem delete_subdivision_recompute_witness :
    simC.subdivisions = simB.subdivisions.filter (fun s => s.id ≠ 5)
    ∧ (simC.occupied_bitset_base64 = none → simC.subdivisions = [])
    ∧ (∀ occ, simC.occupied_bitset_base64 = some occ →
        simC.subdivisions ≠ []
        ∧ _decode_bitset occ = foldOr1 (simC.subdivisions.map decSub))
    ∧ simC.total_selected_cells
        = (simC.subdivisions.map (·.selected_cells)).sum
    ∧ simC.subdivision_count + 1 = simB.subdivision_count
    ∧ (∀ u, simB.subdivisions = [u] →
        simC.occupied_bitset_base64 = none
        ∧ simC.total_selected_cells = 0) :=
  delete_subdivision_recompute simB 5 simC reachB rfl

theorem getD_lt_256 (l : List Nat) (h : ∀ b ∈ l, b < 256) (i : Nat) :
    l.getD i 0 < 256 := by
  by_cases hi : i < l.length
  · rw [List.getD_eq_getElem _ _ hi]
    exact h _ (List.getElem_mem _)
  · rw [List.getD_eq_default _ _ (by omega)]
    omega

theorem getD_zipWith_andNot (a b : List Nat) (h : a.length = b.length)
    (i : Nat) :
    (List.zipWith (fun o r => o &&& (255 ^^^ r)) a b).getD i 0
      = a.getD i 0 &&& (255 ^^^ b.getD i 0) := by
  induction a generalizing b i with
  | nil =>
      have : b = [] := List.length_eq_zero.mp (by simpa using h.symm)
      subst this; simp
  | cons x rest ih =>
      cases b with
      | nil => simp at h
      | cons y brest =>
          cases i with
          | zero => simp
          | succ i =>
              simp only [List.zipWith_cons_cons, List.getD_cons_succ]
              exact ih brest (by simpa using h) i

theorem getD_foldOr1 (ds : List (List Nat)) (L : Nat)
    (hlen : ∀ d ∈ ds, d.length = L) (i : Nat) :
    (foldOr1 ds).getD i 0
      = (ds.map (fun d => d.getD i 0)).foldl (· ||| ·) 0 := by
  cases ds with
  | nil => simp [foldOr1]
  | cons d rest =>
      rw [foldOr1, getD_foldl_orBytes rest d L (hlen d (by simp))
        (fun y hy => hlen y (by simp [hy])) i,
        ← List.foldl_map (fun y : List Nat => y.getD i 0) (· ||| ·) rest
          (d.getD i 0)]
      simp

theorem testBit_ge_eight_eq_false (x j : Nat) (hx : x < 256) (hj : 8 ≤ j) :
    x.testBit j = false := by
  apply Nat.testBit_lt_two_pow
  calc x < 256 := hx
    _ = 2 ^ 8 := by norm_num
    _ ≤ 2 ^ j := Nat.pow_le_pow_right (by omega) hj

/-- Column-level core of the OR-rebuild/incremental-removal equivalence:
removing one value from a disjoint family and OR-folding the rest equals
masking the full fold with the removed value's byte complement. -/
theorem foldl_lor_zero_erase (ns1 ns2 : List Nat) (tv : Nat)
    (hval : ∀ x ∈ ns1 ++ tv :: ns2, x < 256)
    (hdisj : ∀ x ∈ ns1 ++ ns2, x &&& tv = 0) :
    (ns1 ++ ns2).foldl (· ||| ·) 0
      = ((ns1 ++ tv :: ns2).foldl (· ||| ·) 0) &&& (255 ^^^ tv) := by
  have htv : tv < 256 := hval tv (by simp)
  apply Nat.eq_of_testBit_eq
  intro j
  rw [testBit_foldl_lor, Nat.testBit_and, testBit_foldl_lor]
  simp only [Nat.zero_testBit, Bool.false_or, List.any_append, List.any_cons]
  have h255 : (255 : Nat) = 2 ^ 8 - 1 := by norm_num
  rw [Nat.testBit_xor, h255, Nat.testBit_two_pow_sub_one]
  by_cases hj : j < 8
  · rw [decide_eq_true hj, Bool.true_xor]
    cases htvj : tv.testBit j with
    | true =>
        have hall : ∀ x ∈ ns1 ++ ns2, x.testBit j = false := by
          intro x hx
          have hd := congrArg (fun v => v.testBit j) (hdisj x hx)
          simp only [Nat.testBit_and, Nat.zero_testBit, htvj,
            Bool.and_true] at hd
          exact hd
        have h1 : ns1.any (fun n => n.testBit j) = false :=
          List.any_eq_false.mpr
            (fun x hx => by simpa using hall x (by simp [hx]))
        have h2 : ns2.any (fun n => n.testBit j) = false :=
          List.any_eq_false.mpr
            (fun x hx => by simpa using hall x (by simp [hx]))
        simp [h1, h2]
    | false => simp [htvj]
  · rw [decide_eq_false (by omega), Bool.false_xor]
    have hall : ∀ x ∈ ns1 ++ tv :: ns2, x.testBit j = false := by
      intro x hx
      exact testBit_ge_eight_eq_false x j (hval x hx) (by omega)
    have h1 : ns1.any (fun n => n.testBit j) = false :=
      List.any_eq_false.mpr
        (fun x hx => by simpa using hall x (by simp [hx]))
    have h2 : ns2.any (fun n => n.testBit j) = false :=
      List.any_eq_false.mpr
        (fun x hx => by simpa using hall x (by simp [hx]))
    have h3 : tv.testBit j = false := hall tv (by simp)
    simp [h1, h2, h3]

theorem list_eq_of_getD (a b : List Nat) (hlen : a.length = b.length)
    (h : ∀ i, a.getD i 0 = b.getD i 0) : a = b := by
  apply List.ext_getElem hlen
  intro i h1 h2
  have := h i
  rwa [List.getD_eq_getElem _ _ h1, List.getD_eq_getElem _ _ h2] at this

theorem and_xor255_self (x : Nat) (hx : x < 256) : x &&& (255 ^^^ x) = 0 := by
  apply Nat.eq_of_testBit_eq
  intro j
  have h255 : (255 : Nat) = 2 ^ 8 - 1 := by norm_num
  rw [Nat.testBit_and, Nat.testBit_xor, h255, Nat.testBit_two_pow_sub_one,
    Nat.zero_testBit]
  by_cases hj : j < 8
  · rw [decide_eq_true hj, Bool.true_xor]
    cases hb : x.testBit j <;> simp [hb]
  · have := testBit_ge_eight_eq_false x j hx (by omega)
    simp [this]

theorem zipWith_andNot_self (x : List Nat) (hx : ∀ b ∈ x, b < 256) :
    List.zipWith (fun o r => o &&& (255 ^^^ r)) x x
      = List.replicate x.length 0 := by
  induction x with
  | nil => simp
  | cons y ys ih =>
      simp only [List.zipWith_cons_cons, List.length_cons,
        List.replicate_succ]
      rw [and_xor255_self y (hx y (by simp)),
        ih (fun b hb => hx b (by simp [hb]))]

/-- C6: under the no-double-coverage invariant of reachable states, the
OR-rebuild performed by `delete_subdivision` yields exactly the bitset an
ideal incremental removal would: the old occupied bitset with precisely the
removed subdivision's bits cleared (`o AND NOT r` bytewise); when nothing
remains, the incremental result is the all-zero bitset and the rebuild
stores "absent". -/
theorem delete_rebuild_eq_incremental (sim : Simulation) (sid : Nat)
    (s' : Simulation) (t : Subdivision) (occ : List Char)
    (hreach : Reachable sim)
    (ht : t ∈ sim.subdivisions) (htid : t.id = sid)
    (hocc : sim.occupied_bitset_base64 = some occ)
    (h : delete_subdivision sim sim.user_id sid = .ok s') :
    (∀ occ2, s'.occupied_bitset_base64 = some occ2 →
        _decode_bitset occ2
          = List.zipWith (fun o r => o &&& (255 ^^^ r))
              (_decode_bitset occ) (decSub t))
    ∧ (s'.occupied_bitset_base64 = none →
        List.zipWith (fun o r => o &&& (255 ^^^ r))
            (_decode_bitset occ) (decSub t)
          = List.replicate (_decode_bitset occ).length 0) := by
  have hinv := reachable_inv sim hreach
  have hinv' := inv_del sim sid s' hinv h
  obtain ⟨-, hsubs, -, -, -, -⟩ := delete_subdivision_ok_dissect sim sid s' h
  obtain ⟨l1, l2, hdecomp, hfilter⟩ :=
    filter_ne_decomp sim.subdivisions sid hinv.ids_nodup t ht htid
  obtain ⟨hne, hocc_eq⟩ := hinv.occ_some occ hocc
  have hall_len : ∀ s ∈ sim.subdivisions,
      (decSub s).length = (decSub t).length :=
    fun s hs => hinv.len_eq s hs t ht
  have hoccL : (_decode_bitset occ).length = (decSub t).length := by
    rw [hocc_eq]
    apply foldOr1_length _ _ _ (by simpa using hne)
    intro d hd
    obtain ⟨s, hs, rfl⟩ := List.mem_map.mp hd
    exact hall_len s hs
  have hpair := hinv.disj
  rw [hdecomp, List.pairwise_append, List.pairwise_cons] at hpair
  obtain ⟨hp1, ⟨ht_l2, hp2⟩, hp12⟩ := hpair
  have hdisj_t : ∀ u ∈ l1 ++ l2, bytesDisjoint (decSub u) (decSub t) := by
    intro u hu
    rcases List.mem_append.mp hu with hu | hu
    · exact hp12 u hu t (by simp)
    · exact bytesDisjoint_symm _ _ (ht_l2 u hu)
  constructor
  · intro occ2 hocc2
    obtain ⟨hne', hocc2_eq⟩ := hinv'.occ_some occ2 hocc2
    rw [hsubs, hfilter] at hocc2_eq
    have hrem_len : ∀ d ∈ (l1 ++ l2).map decSub,
        d.length = (decSub t).length := by
      intro d hd
      obtain ⟨s, hs, rfl⟩ := List.mem_map.mp hd
      apply hall_len
      rw [hdecomp]
      rcases List.mem_append.mp hs with hs | hs
      · exact List.mem_append.mpr (.inl hs)
      · exact List.mem_append.mpr (.inr (by simp [hs]))
    have hrem_ne : (l1 ++ l2).map decSub ≠ [] := by
      rw [hsubs, hfilter] at hne'
      simpa using hne'
    have hall_len' : ∀ d ∈ (l1 ++ t :: l2).map decSub,
        d.length = (decSub t).length := by
      intro d hd
      obtain ⟨s, hs, rfl⟩ := List.mem_map.mp hd
      exact hall_len s (by rw [hdecomp]; exact hs)
    have hLHS_len : (_decode_bitset occ2).length = (decSub t).length := by
      rw [hocc2_eq]
      exact foldOr1_length _ _ hrem_len hrem_ne
    apply list_eq_of_getD
    · rw [hLHS_len, List.length_zipWith, hoccL]
      simp
    · intro i
      rw [hocc2_eq, getD_zipWith_andNot _ _ (by rw [hoccL]) i,
        getD_foldOr1 _ (decSub t).length hrem_len i, hocc_eq, hdecomp,
        getD_foldOr1 _ (decSub t).length hall_len' i,
        List.map_map, List.map_map, List.map_append, List.map_append,
        List.map_cons]
      have hval : ∀ x ∈ l1.map ((fun d : List Nat => d.getD i 0) ∘ decSub)
          ++ ((fun d : List Nat => d.getD i 0) ∘ decSub) t
            :: l2.map ((fun d : List Nat => d.getD i 0) ∘ decSub),
          x < 256 := by
        intro x hx
        have : x ∈ (l1 ++ t :: l2).map
            ((fun d : List Nat => d.getD i 0) ∘ decSub) := by
          rw [List.map_append, List.map_cons]
          exact hx
        obtain ⟨u, hu, rfl⟩ := List.mem_map.mp this
        exact getD_lt_256 _ (hinv.bytes_lt u (by rw [hdecomp]; exact hu)) i
      have hdisjcol : ∀ x ∈ l1.map ((fun d : List Nat => d.getD i 0) ∘ decSub)
          ++ l2.map ((fun d : List Nat => d.getD i 0) ∘ decSub),
          x &&& ((fun d : List Nat => d.getD i 0) ∘ decSub) t = 0 := by
        intro x hx
        have : x ∈ (l1 ++ l2).map
            ((fun d : List Nat => d.getD i 0) ∘ decSub) := by
          rw [List.map_append]
          exact hx
        obtain ⟨u, hu, rfl⟩ := List.mem_map.mp this
        exact hdisj_t u hu i
      exact foldl_lor_zero_erase _ _ _ hval hdisjcol
  · intro hnone
    have hrem_nil : s'.subdivisions = [] := hinv'.occ_none hnone
    rw [hsubs, hfilter] at hrem_nil
    obtain ⟨h1, h2⟩ := List.append_eq_nil.mp hrem_nil
    subst h1
    subst h2
    have hocc_t : _decode_bitset occ = decSub t := by
      rw [hocc_eq, hdecomp]
      simp [foldOr1]
    rw [hocc_t, zipWith_andNot_self _ (hinv.bytes_lt t ht)]

/-- Closed witness for `delete_rebuild_eq_incremental`: deleting the only
subdivision of `simB`. -/
theorem delete_rebuild_eq_incremental_witness :
    (∀ occ2, simC.occupied_bitset_base64 = some occ2 →
        _decode_bitset occ2
          = List.zipWith (fun o r => o &&& (255 ^^^ r))
              (_decode_bitset (encode_bitset_zlib_base64 [3] 9))
              (decSub subB))
    ∧ (simC.occupied_bitset_base64 = none →
        List.zipWith (fun o r => o &&& (255 ^^^ r))
            (_decode_bitset (encode_bitset_zlib_base64 [3] 9))
            (decSub subB)
          = List.replicate
              (_decode_bitset (encode_bitset_zlib_base64 [3] 9)).length 0) :=
  delete_rebuild_eq_incremental simB 5 simC subB
    (encode_bitset_zlib_base64 [3] 9) reachB (by simp [simB]) rfl rfl rfl

/-! ## Constraint evaluation (`validate_and_rasterize_geometry`, steps 4-5
of lakes/services.py) -/

/-- A constraint raster layer: cell values (`read_layer_array` output) plus
the layer's optional no-data sentinel.  Pixel values are modelled as
integers. -/
structure ConstraintLayer where
  vals : Nat → Nat → Int
  nodata : Option Int

/-- `water_valid` / `inhab_valid`: an all-true mask when no sentinel is
declared, else true exactly where the pixel differs from the sentinel. -/
def validCell (layer : ConstraintLayer) (r c : Nat) : Bool :=
  match layer.nodata with
  | none => true
  | some nd => decide (layer.vals r c ≠ nd)

/-- `nodata_mask = (~water_valid) | (~inhab_valid)`. -/
def nodataCell (water inhab : ConstraintLayer) (r c : Nat) : Bool :=
  !validCell water r c || !validCell inhab r c

/-- `(water != 0) & water_valid & sel_mask` at one cell. -/
def waterHitCell (water : ConstraintLayer) (sel : Nat → Nat → Bool)
    (r c : Nat) : Bool :=
  decide (water.vals r c ≠ 0) && validCell water r c && sel r c

/-- `(inhab > 0) & inhab_valid & sel_mask` at one cell. -/
def inhabHitCell (inhab : ConstraintLayer) (sel : Nat → Nat → Bool)
    (r c : Nat) : Bool :=
  decide (0 < inhab.vals r c) && validCell inhab r c && sel r c

/-- `sel_mask & ((water != 0) | (inhab > 0) | nodata_mask)` at one cell. -/
def blockedCell (water inhab : ConstraintLayer) (sel : Nat → Nat → Bool)
    (r c : Nat) : Bool :=
  sel r c && (decide (water.vals r c ≠ 0) || decide (0 < inhab.vals r c)
    || nodataCell water inhab r c)

/-- numpy `.sum()` of a boolean cell predicate over the grid. -/
def countCells (rows cols : Nat) (p : Nat → Nat → Bool) : Nat :=
  ((List.range rows).map
    (fun r => ((List.range cols).filter (fun c => p r c)).length)).sum

/-- The counts and verdict of the constraint-evaluation stage. -/
structure GeometryValidationCounts where
  selected_cells : Nat
  blocked_cells : Nat
  water : Nat
  inhabitants : Nat
  nodata : Nat
  ok : Bool

/-- Steps 4-5 of `validate_and_rasterize_geometry` (lakes/services.py):
per-layer validity masks, hit counts per cause, blocked-cell count and the
`ok = (blocked_cells == 0)` verdict. -/
def evaluate_constraints (rows cols : Nat) (sel : Nat → Nat → Bool)
    (water inhab : ConstraintLayer) : GeometryValidationCounts :=
  { selected_cells := countCells rows cols sel
    blocked_cells := countCells rows cols (blockedCell water inhab sel)
    water := countCells rows cols (waterHitCell water sel)
    inhabitants := countCells rows cols (inhabHitCell inhab sel)
    nodata := countCells rows cols
      (fun r c => nodataCell water inhab r c && sel r c)
    ok := countCells rows cols (blockedCell water inhab sel) == 0 }

theorem countCells_pos (rows cols r c : Nat) (p : Nat → Nat → Bool)
    (hr : r < rows) (hc : c < cols) (hp : p r c = true) :
    0 < countCells rows cols p := by
  unfold countCells
  have hmem : ((List.range cols).filter (fun c => p r c)).length
      ∈ (List.range rows).map
        (fun r => ((List.range cols).filter (fun c => p r c)).length) :=
    List.mem_map_of_mem _ (List.mem_range.mpr hr)
  have hpos : 0 < ((List.range cols).filter (fun c => p r c)).length := by
    apply List.length_pos.mpr
    apply List.ne_nil_of_mem (a := c)
    exact List.mem_filter.mpr ⟨List.mem_range.mpr hc, hp⟩
  calc 0 < ((List.range cols).filter (fun c => p r c)).length := hpos
    _ ≤ _ := List.single_le_sum (by simp) _ hmem

/-! ## GeoJSON parsing (`parse_geojson_geometry`, geometry_services.py) and
its error reporting in `validate_and_rasterize_geometry` -/

inductive GeomType where
  | Point
  | LineString
  | Polygon
  | MultiPolygon
  | GeometryCollection
  | Other
  deriving DecidableEq, Repr

/-- Attributes of the shapely geometry produced by `shape()`. -/
structure ParsedGeom where
  geom_type : GeomType
  is_empty : Bool
  is_valid : Bool
  deriving DecidableEq, Repr

/-- A GeoJSON geometry payload as `parse_geojson_geometry` observes it:
whether the dict carries a `type` key, and what `shape()` yields (`none`
when `shape()` itself raises — a non-`GeometryError` exception). -/
structure GeoJsonPayload where
  has_type : Bool
  shape_result : Option ParsedGeom
  deriving DecidableEq, Repr

/-- The distinct `GeometryError` message families raised by
`parse_geojson_geometry` ("Invalid GeoJSON geometry: missing 'type'.",
"Geometry is empty.", "Unsupported geometry type: ...",
"Geometry is not valid ..."). -/
inductive GeometryErrorMsg where
  | missing_type
  | empty_geometry
  | unsupported_type
  | not_valid
  deriving DecidableEq, Repr

inductive ParseOutcome where
  | ok (geom : ParsedGeom)
  | geometryError (msg : GeometryErrorMsg)
  | otherException
  deriving DecidableEq, Repr

/-- `parse_geojson_geometry` (geometry_services.py): missing type tag,
then `shape()`, then the empty / unsupported-type / invalid checks, in
source order; every rejection is a `GeometryError` distinguished only by
its message. -/
def parse_geojson_geometry (g : GeoJsonPayload) : ParseOutcome :=
  if !g.has_type then .geometryError .missing_type
  else
    match g.shape_result with
    | none => .otherException
    | some geom =>
        if geom.is_empty then .geometryError .empty_geometry
        else if geom.geom_type ≠ .Polygon
            ∧ geom.geom_type ≠ .MultiPolygon then
          .geometryError .unsupported_type
        else if !geom.is_valid then .geometryError .not_valid
        else .ok geom

/-- The user-facing `GeometryErrorItem.code` values emitted by steps 1-2 of
`validate_and_rasterize_geometry`. -/
inductive GeometryErrorCode where
  | INVALID_GEOJSON
  | UNSUPPORTED_GEOMETRY
  | INVALID_GEOMETRY
  deriving DecidableEq, Repr

/-- Steps 1-2 of `validate_and_rasterize_geometry` (lakes/services.py):
`except GeometryError as e: errors.append(GeometryErrorItem(
code="INVALID_GEOJSON", message=str(e)))` — every parse `GeometryError` is
reported under the single code `INVALID_GEOJSON`; a reprojection failure is
reported as `INVALID_GEOMETRY`; a non-`GeometryError` exception from
parsing is not caught and propagates (`.error ()`). -/
def validate_geometry_error_code (g : GeoJsonPayload) (reproject_ok : Bool) :
    Except Unit (Option GeometryErrorCode) :=
  match parse_geojson_geometry g with
  | .geometryError _ => .ok (some .INVALID_GEOJSON)
  | .otherException => .error ()
  | .ok _ =>
      .ok (if reproject_ok then none else some .INVALID_GEOMETRY)

/-- C7: a selected cell whose value in a constraint layer equals that
layer's declared no-data sentinel is excluded from that layer's
water/inhabitants hit count, is counted under `nodata` in the breakdown,
and is treated as blocked (conservative), so it contributes to
`blocked_cells` and forces `ok = false`. -/
theorem nodata_cell_blocks (rows cols r c : Nat) (sel : Nat → Nat → Bool)
    (water inhab : ConstraintLayer) (hr : r < rows) (hc : c < cols)
    (hsel : sel r c = true) :
    (∀ nd, water.nodata = some nd → water.vals r c = nd →
      waterHitCell water sel r c = false
      ∧ nodataCell water inhab r c = true
      ∧ blockedCell water inhab sel r c = true
      ∧ 0 < (evaluate_constraints rows cols sel water inhab).nodata
      ∧ 0 < (evaluate_constraints rows cols sel water inhab).blocked_cells
      ∧ (evaluate_constraints rows cols sel water inhab).ok = false)
    ∧ (∀ nd, inhab.nodata = some nd → inhab.vals r c = nd →
      inhabHitCell inhab sel r c = false
      ∧ nodataCell water inhab r c = true
      ∧ blockedCell water inhab sel r c = true
      ∧ 0 < (evaluate_constraints rows cols sel water inhab).nodata
      ∧ 0 < (evaluate_constraints rows cols sel water inhab).blocked_cells
      ∧ (evaluate_constraints rows cols sel water inhab).ok = false) := by
  constructor
  · intro nd hnd heq
    have hinvalid : validCell water r c = false := by
      unfold validCell
      rw [hnd]
      simp [heq]
    have hnodata : nodataCell water inhab r c = true := by
      unfold nodataCell
      rw [hinvalid]
      simp
    have hblocked : blockedCell water inhab sel r c = true := by
      unfold blockedCell
      rw [hsel, hnodata]
      simp
    refine ⟨?_, hnodata, hblocked, ?_, ?_, ?_⟩
    · unfold waterHitCell
      rw [hinvalid]
      simp
    · exact countCells_pos rows cols r c _ hr hc (by rw [hnodata, hsel]; rfl)
    · exact countCells_pos rows cols r c _ hr hc hblocked
    · have hpos : 0 < countCells rows cols (blockedCell water inhab sel) :=
        countCells_pos rows cols r c _ hr hc hblocked
      show (countCells rows cols (blockedCell water inhab sel) == 0) = false
      exact beq_eq_false_iff_ne.mpr (by omega)
  · intro nd hnd heq
    have hinvalid : validCell inhab r c = false := by
      unfold validCell
      rw [hnd]
      simp [heq]
    have hnodata : nodataCell water inhab r c = true := by
      unfold nodataCell
      rw [hinvalid]
      simp
    have hblocked : blockedCell water inhab sel r c = true := by
      unfold blockedCell
      rw [hsel, hnodata]
      simp
    refine ⟨?_, hnodata, hblocked, ?_, ?_, ?_⟩
    · unfold inhabHitCell
      rw [hinvalid]
      simp
    · exact countCells_pos rows cols r c _ hr hc (by rw [hnodata, hsel]; rfl)
    · exact countCells_pos rows cols r c _ hr hc hblocked
    · have hpos : 0 < countCells rows cols (blockedCell water inhab sel) :=
        countCells_pos rows cols r c _ hr hc hblocked
      show (countCells rows cols (blockedCell water inhab sel) == 0) = false
      exact beq_eq_false_iff_ne.mpr (by omega)

/-- Closed witness for `nodata_cell_blocks` on a concrete `1×1` grid whose
single selected cell carries the water layer's sentinel value. -/
theorem nodata_cell_blocks_witness :
    (∀ nd, (⟨fun _ _ => (-9999 : Int), some (-9999)⟩ :
        ConstraintLayer).nodata = some nd →
      (⟨fun _ _ => (-9999 : Int), some (-9999)⟩ :
        ConstraintLayer).vals 0 0 = nd →
      waterHitCell ⟨fun _ _ => (-9999 : Int), some (-9999)⟩
          (fun _ _ => true) 0 0 = false
      ∧ nodataCell ⟨fun _ _ => (-9999 : Int), some (-9999)⟩
          ⟨fun _ _ => (0 : Int), none⟩ 0 0 = true
      ∧ blockedCell ⟨fun _ _ => (-9999 : Int), some (-9999)⟩
          ⟨fun _ _ => (0 : Int), none⟩ (fun _ _ => true) 0 0 = true
      ∧ 0 < (evaluate_constraints 1 1 (fun _ _ => true)
          ⟨fun _ _ => (-9999 : Int), some (-9999)⟩
          ⟨fun _ _ => (0 : Int), none⟩).nodata
      ∧ 0 < (evaluate_constraints 1 1 (fun _ _ => true)
          ⟨fun _ _ => (-9999 : Int), some (-9999)⟩
          ⟨fun _ _ => (0 : Int), none⟩).blocked_cells
      ∧ (evaluate_constraints 1 1 (fun _ _ => true)
          ⟨fun _ _ => (-9999 : Int), some (-9999)⟩
          ⟨fun _ _ => (0 : Int), none⟩).ok = false)
    ∧ (∀ nd, (⟨fun _ _ => (0 : Int), none⟩ :
        ConstraintLayer).nodata = some nd →
      (⟨fun _ _ => (0 : Int), none⟩ : ConstraintLayer).vals 0 0 = nd →
      inhabHitCell ⟨fun _ _ => (0 : Int), none⟩ (fun _ _ => true) 0 0 = false
      ∧ nodataCell ⟨fun _ _ => (-9999 : Int), some (-9999)⟩
          ⟨fun _ _ => (0 : Int), none⟩ 0 0 = true
      ∧ blockedCell ⟨fun _ _ => (-9999 : Int), some (-9999)⟩
          ⟨fun _ _ => (0 : Int), none⟩ (fun _ _ => true) 0 0 = true
      ∧ 0 < (evaluate_constraints 1 1 (fun _ _ => true)
          ⟨fun _ _ => (-9999 : Int), some (-9999)⟩
          ⟨fun _ _ => (0 : Int), none⟩).nodata
      ∧ 0 < (evaluate_constraints 1 1 (fun _ _ => true)
          ⟨fun _ _ => (-9999 : Int), some (-9999)⟩
          ⟨fun _ _ => (0 : Int), none⟩).blocked_cells
      ∧ (evaluate_constraints 1 1 (fun _ _ => true)
          ⟨fun _ _ => (-9999 : Int), some (-9999)⟩
          ⟨fun _ _ => (0 : Int), none⟩).ok = false) :=
  nodata_cell_blocks 1 1 0 0 (fun _ _ => true)
    ⟨fun _ _ => (-9999 : Int), some (-9999)⟩
    ⟨fun _ _ => (0 : Int), none⟩ (by omega) (by omega) rfl

/-- C8 counterexample: a well-formed `Point` geometry payload — parsed
successfully by `shape()`, nonempty and valid, merely of an unsupported
type — is reported by geometry validation under the code
`INVALID_GEOJSON`, not `UNSUPPORTED_GEOMETRY` as the claim states. -/
theorem point_reported_as_invalid_geojson :
    validate_geometry_error_code
        ⟨true, some ⟨GeomType.Point, false, true⟩⟩ true
      = .ok (some .INVALID_GEOJSON)
    ∧ (some GeometryErrorCode.INVALID_GEOJSON
        ≠ some GeometryErrorCode.UNSUPPORTED_GEOMETRY) :=
  ⟨rfl, by decide⟩

/-- C8 amended: `parse_geojson_geometry` distinguishes the three failure
classes — missing/unparsable payload, unsupported geometry type, empty or
topologically invalid shape (validity checked explicitly, after parsing) —
but only through the `GeometryError` *message*; `validate_and_rasterize_geometry`
reports every parse `GeometryError` under the single user-recoverable code
`INVALID_GEOJSON`, and uses `INVALID_GEOMETRY` only for reprojection
failures. -/
theorem parse_failures_distinguished_by_message (g : GeoJsonPayload) :
    (g.has_type = false →
      parse_geojson_geometry g = .geometryError .missing_type)
    ∧ (∀ geom, g.has_type = true → g.shape_result = some geom →
      (geom.is_empty = true →
        parse_geojson_geometry g = .geometryError .empty_geometry)
      ∧ (geom.is_empty = false → geom.geom_type ≠ .Polygon →
          geom.geom_type ≠ .MultiPolygon →
        parse_geojson_geometry g = .geometryError .unsupported_type)
      ∧ (geom.is_empty = false →
          (geom.geom_type = .Polygon ∨ geom.geom_type = .MultiPolygon) →
          geom.is_valid = false →
        parse_geojson_geometry g = .geometryError .not_valid)
      ∧ (geom.is_empty = false →
          (geom.geom_type = .Polygon ∨ geom.geom_type = .MultiPolygon) →
          geom.is_valid = true →
        parse_geojson_geometry g = .ok geom))
    ∧ (∀ msg, parse_geojson_geometry g = .geometryError msg →
      ∀ reproject_ok, validate_geometry_error_code g reproject_ok
        = .ok (some .INVALID_GEOJSON))
    ∧ (∀ geom, parse_geojson_geometry g = .ok geom →
      validate_geometry_error_code g false
        = .ok (some .INVALID_GEOMETRY)) := by
  obtain ⟨htype, hshape⟩ := g
  refine ⟨?_, ?_, ?_, ?_⟩
  · intro h
    subst h
    rfl
  · intro geom h1 h2
    subst h1
    subst h2
    obtain ⟨gt, ge, gv⟩ := geom
    cases gt <;> cases ge <;> cases gv <;> decide
  · intro msg h reproject_ok
    unfold validate_geometry_error_code
    rw [h]
  · intro geom h
    unfold validate_geometry_error_code
    rw [h]
    rfl

/-- Closed witness for `parse_failures_distinguished_by_message` at the
`Point` payload. -/
theorem parse_failures_distinguished_by_message_witness :
    ((⟨true, some ⟨GeomType.Point, false, true⟩⟩ :
        GeoJsonPayload).has_type = false →
      parse_geojson_geometry ⟨true, some ⟨GeomType.Point, false, true⟩⟩
        = .geometryError .missing_type)
    ∧ (∀ geom, (⟨true, some ⟨GeomType.Point, false, true⟩⟩ :
        GeoJsonPayload).has_type = true →
      (⟨true, some ⟨GeomType.Point, false, true⟩⟩ :
        GeoJsonPayload).shape_result = some geom →
      (geom.is_empty = true →
        parse_geojson_geometry ⟨true, some ⟨GeomType.Point, false, true⟩⟩
          = .geometryError .empty_geometry)
      ∧ (geom.is_empty = false → geom.geom_type ≠ .Polygon →
          geom.geom_type ≠ .MultiPolygon →
        parse_geojson_geometry ⟨true, some ⟨GeomType.Point, false, true⟩⟩
          = .geometryError .unsupported_type)
      ∧ (geom.is_empty = false →
          (geom.geom_type = .Polygon ∨ geom.geom_type = .MultiPolygon) →
          geom.is_valid = false →
        parse_geojson_geometry ⟨true, some ⟨GeomType.Point, false, true⟩⟩
          = .geometryError .not_valid)
      ∧ (geom.is_empty = false →
          (geom.geom_type = .Polygon ∨ geom.geom_type = .MultiPolygon) →
          geom.is_valid = true →
        parse_geojson_geometry ⟨true, some ⟨GeomType.Point, false, true⟩⟩
          = .ok geom))
    ∧ (∀ msg, parse_geojson_geometry
        ⟨true, some ⟨GeomType.Point, false, true⟩⟩ = .geometryError msg →
      ∀ reproject_ok, validate_geometry_error_code
          ⟨true, some ⟨GeomType.Point, false, true⟩⟩ reproject_ok
        = .ok (some .INVALID_GEOJSON))
    ∧ (∀ geom, parse_geojson_geometry
        ⟨true, some ⟨GeomType.Point, false, true⟩⟩ = .ok geom →
      validate_geometry_error_code
          ⟨true, some ⟨GeomType.Point, false, true⟩⟩ false
        = .ok (some .INVALID_GEOMETRY)) :=
  parse_failures_distinguished_by_message
    ⟨true, some ⟨GeomType.Point, false, true⟩⟩

end LakeSim
